import Mathlib

/-!
# Verification of the rainlang RainDocument front-end

A shallow embedding of the `RainDocument` parser/resolver
(`src/parser/rainDocument.ts`) of the rainlang repository, together with
theorems settling the frozen claims about it.

Conventions:
* Source positions are inclusive `[start, end]` offset pairs, as in the
  TypeScript (`AST.Offsets`); we use `Int × Int` since the code produces
  `-1` components (e.g. document-wide problems at `[0, -1]`).
* JS objects indexed by string keys (the namespace) are modelled as
  association lists `List (String × _)` preserving insertion order, which
  matches JS object key-ordering semantics for the non-numeric keys used
  by the code.
* The external collaborators (metadata store, `Meta` decoding library,
  the `Rainlang` expression parser, the `toposort` npm package, the
  LSP text-document model) are not part of the repository; they enter as
  explicit parameters/environments or are modelled from their documented
  contracts, each marked in its doc comment.
* Small helpers (`exclusiveParse`, `fillIn`, `trackedTrim`, the regex
  pattern constants, `AST.Namespace.isWord` …) live in repository files
  that are not part of the provided sources (`helpers.ts`,
  `languageTypes.ts`); those are modelled from the specification's words
  and marked `Modelled from the spec`.
-/

namespace Rainlang

/-- Inclusive `[start, end]` offset pair (`AST.Offsets`). -/
abbrev Offsets := Int × Int

/-- Modelled from the spec: the closed diagnostic code enumeration
(`ErrorCode` of `languageTypes.ts`, which is not among the provided
sources); only the symbolic names are used by the embedded code, never
the numeric values. -/
inductive ErrorCode where
  | RuntimeError
  | CircularDependency
  | UnresolvableDependencies
  | DeepImport
  | CorruptMeta
  | UndefinedMeta
  | InconsumableMeta
  | UndefinedAuthoringMeta
  | InvalidRainDocument
  | DuplicateImport
  | DuplicateIdentifier
  | MultipleWords
  | SingletonWords
  | UndefinedDISpair
  | SingleWordModify
  | UnexpectedRebinding
  | UndefinedIdentifier
  | InvalidImport
  | InvalidHash
  | ExpectedHash
  | InvalidWordPattern
  | UnexpectedToken
  | DuplicateImportStatement
  | ExpectedElisionOrRebinding
  | ExpectedName
  | InvalidBindingIdentifier
  | InvalidEmptyBinding
  | UnexpectedEndOfComment
  deriving DecidableEq, Repr

/-- `AST.Problem`: `{msg, position, code}`. -/
structure Problem where
  msg : String
  position : Offsets
  code : ErrorCode
  deriving DecidableEq, Repr

/-- `AST.Comment`: a comment span. -/
structure Comment where
  comment : String
  position : Offsets
  deriving DecidableEq, Repr

/-- A parsed chunk of text with its position (`ParsedChunk` of
`helpers.ts`): the chunk text and its inclusive offsets. -/
abbrev Chunk := String × Offsets

/-- One authoring-metadata entry (a "word"); `Meta.Authoring` of the
external meta library, reduced to the fields the embedded code reads. -/
structure Authoring where
  word : String
  description : String := ""
  deriving DecidableEq, Repr

/-- `AST.ContextAlias`; `row = none` models the `NaN` row of a
column-only alias. -/
structure ContextAlias where
  name : String
  column : Int
  row : Option Int := none
  description : String := ""
  deriving DecidableEq, Repr

/-- The opaque expression AST produced by the external `Rainlang`
parser, reduced to the problems it reports (positions relative to the
binding's content start), which is the only part the embedded code
consumes. -/
structure RainlangExp where
  problems : List Problem
  deriving DecidableEq, Repr

/-- `AST.Binding`: a named expression fragment. `constant`, `elided` and
`exp` model the mutually-exclusive optional fields of the TypeScript
object (`exp` is the expression field). -/
structure Binding where
  name : String
  namePosition : Offsets
  content : String
  contentPosition : Offsets
  position : Offsets
  problems : List Problem := []
  dependencies : List String := []
  constant : Option String := none
  elided : Option String := none
  exp : Option RainlangExp := none
  deriving DecidableEq, Repr

/-- Namespace element payload of a leaf: word-set (`Words` key, element
is an `Authoring[]`), a single word entry, a binding, or a context
alias. -/
inductive NSElement where
  | words (ams : List Authoring)
  | word (am : Authoring)
  | binding (b : Binding)
  | contextAlias (ca : ContextAlias)
  deriving Repr

/-- A namespace leaf `{Hash, ImportIndex, Element}`; `bytecode` models
the extra field the code attaches to the `Words` node. -/
structure NSLeaf where
  Hash : String
  ImportIndex : Int
  Element : NSElement
  bytecode : Option String := none
  deriving Repr

mutual
/-- A namespace node: either a leaf (an object with an `Element` key) or
an interior node (a name-keyed map of children in insertion order). -/
inductive NSNode where
  | leaf (l : NSLeaf)
  | node (m : NSMap)

/-- `AST.Namespace`: an interior node's name-keyed children, modelled as
a key/value sequence in JS-object insertion order (a mutual inductive
rather than a nested `List` so that every function on it is structurally
recursive and kernel-evaluable). -/
inductive NSMap where
  | nil
  | cons (k : String) (v : NSNode) (rest : NSMap)
end

/-- JS `obj[key]` lookup. -/
def NSMap.lookup : NSMap → String → Option NSNode
  | .nil, _ => none
  | .cons k v rest, key => if k == key then some v else rest.lookup key

/-- JS `key in obj`. -/
def NSMap.hasKey (m : NSMap) (key : String) : Bool := (m.lookup key).isSome

/-- JS `delete obj[key]`. -/
def NSMap.erase : NSMap → String → NSMap
  | .nil, _ => .nil
  | .cons k v rest, key =>
    if k == key then rest.erase key else .cons k v (rest.erase key)

/-- `Object.keys`. -/
def NSMap.keys : NSMap → List String
  | .nil => []
  | .cons k _ rest => k :: rest.keys

/-- `Object.keys(obj).length === 0`. -/
def NSMap.isEmpty : NSMap → Bool
  | .nil => true
  | .cons _ _ _ => false

/-- Concatenation of two key/value sequences. -/
def NSMap.append : NSMap → NSMap → NSMap
  | .nil, m2 => m2
  | .cons k v rest, m2 => .cons k v (rest.append m2)

/-- Overwrite the value at an existing key, keeping its position. -/
def NSMap.set : NSMap → String → NSNode → NSMap
  | .nil, _, _ => .nil
  | .cons k v rest, key, nv =>
    if k == key then .cons k nv rest else .cons k v (rest.set key nv)

/-- JS `obj[key] = v`: overwrite in place if the key exists, else append
(insertion order). -/
def NSMap.assign (m : NSMap) (key : String) (v : NSNode) : NSMap :=
  if m.hasKey key then m.set key v else m.append (.cons key v .nil)

/-- Build a namespace map from a list (for concrete examples). -/
def NSMap.ofList : List (String × NSNode) → NSMap
  | [] => .nil
  | (k, v) :: rest => .cons k v (NSMap.ofList rest)

/-- JS `Object.values(ns)` as a list. -/
def NSMap.entries : NSMap → List (String × NSNode)
  | .nil => []
  | .cons k v rest => (k, v) :: rest.entries

/-- Is this node a leaf (`"Element" in node`, `AST.Namespace.isNode`)?
Modelled from the spec: a leaf is the tagged variant carrying an
`element`. -/
def NSNode.isLeaf : NSNode → Bool
  | .leaf _ => true
  | .node _ => false

/-- Modelled from the spec: `AST.Namespace.isWord` — a leaf whose
element is a single-word entry. -/
def NSNode.isWord : NSNode → Bool
  | .leaf { Element := .word _, .. } => true
  | _ => false

/-- Modelled from the spec: `AST.Namespace.isBinding` — a leaf whose
element is a binding. -/
def NSNode.isBinding : NSNode → Bool
  | .leaf { Element := .binding _, .. } => true
  | _ => false

/-- Modelled from the spec: `AST.Namespace.isContextAlias` — a leaf
whose element is a context alias. -/
def NSNode.isContextAlias : NSNode → Bool
  | .leaf { Element := .contextAlias _, .. } => true
  | _ => false

/-- JS `node.Hash`: the hash of a leaf, `undefined` (`none`) on an
interior node. -/
def NSNode.hashOf : NSNode → Option String
  | .leaf l => some l.Hash
  | .node _ => none

/-! ## Text-model and pattern helpers -/

/-- The JS regex `\s` class, restricted to the characters that can occur
in the documents we reason about (ASCII whitespace plus NBSP and BOM);
models the JavaScript runtime's whitespace semantics used by
`/[^\s]/.test` and the `\s+` tokenizer. -/
def jsIsSpace (c : Char) : Bool :=
  c == ' ' || c == '\t' || c == '\n' || c == '\r' ||
  c == Char.ofNat 11 || c == Char.ofNat 12 ||
  c == Char.ofNat 0xa0 || c == Char.ofNat 0xfeff

/-- JS regex `\w` (word character): `[A-Za-z0-9_]`. -/
def isJsWordChar (c : Char) : Bool :=
  c.isAlpha || c.isDigit || c == '_'

/-- Line-start offsets of a text, following the LSP text-document model
(the external document text model: line breaks are `\r\n`, `\r` or
`\n`); start of line 0 (offset 0) is not included here. -/
def lineStartsAux : List Char → Nat → List Nat
  | [], _ => []
  | '\r' :: '\n' :: rest, i => (i + 2) :: lineStartsAux rest (i + 2)
  | '\r' :: rest, i => (i + 1) :: lineStartsAux rest (i + 1)
  | '\n' :: rest, i => (i + 1) :: lineStartsAux rest (i + 1)
  | _ :: rest, i => lineStartsAux rest (i + 1)

/-- All line-start offsets of a text (line 0 starts at 0). -/
def lineStarts (t : String) : List Nat := 0 :: lineStartsAux t.data 0

/-- `textDocument.positionAt(off).line`: the greatest line whose start
offset is `≤ off` (offset clamped into the text). Models the external
LSP text-document collaborator. -/
def jsLineOf (t : String) (off : Int) : Nat :=
  let o : Nat := if off < 0 then 0 else min off.toNat t.length
  ((lineStarts t).filter (fun s => s ≤ o)).length - 1

/-- Does `pat` occur in `s` with JS `\b` word boundaries on both sides
(the `/\bignore-next-line\b/`-style tests of `_parse`)? -/
def containsWordBounded (s pat : String) : Bool :=
  go none s.data
where
  go : Option Char → List Char → Bool
    | _, [] => false
    | prev, l@(c :: rest) =>
      ((match prev with
        | none => true
        | some p => !isJsWordChar p) &&
       pat.data.isPrefixOf l &&
       (match l.drop pat.data.length with
        | [] => true
        | d :: _ => !isJsWordChar d)) ||
      go (some c) rest

/-- JS `s.slice(1)` on a string (first UTF-16 unit dropped). -/
def strDropOne (s : String) : String := String.mk (s.data.drop 1)

/-- JS `s.toLowerCase()` (ASCII case map, as used on hex hashes and
identifiers). -/
def jsToLower (s : String) : String := String.mk (s.data.map Char.toLower)

/-- Lowercase ASCII letter `[a-z]`. -/
def isLowerAZ (c : Char) : Bool := 'a' ≤ c && c ≤ 'z'

/-- Hex digit `[0-9a-fA-F]`. -/
def isHexDigit (c : Char) : Bool :=
  c.isDigit || ('a' ≤ c && c ≤ 'f') || ('A' ≤ c && c ≤ 'F')

/-- Modelled from the spec: `HEX_PATTERN` of `languageTypes.ts` (not
among the provided sources) — a `0x`-prefixed hex literal of at least
one digit (`/^0x[0-9a-fA-F]+$/`). -/
def hexPatternTest (s : String) : Bool :=
  match s.data with
  | '0' :: 'x' :: rest => !rest.isEmpty && rest.all isHexDigit
  | _ => false

/-- Modelled from the spec: `HASH_PATTERN` — a fixed-length 32-byte hex
string (`/^0x[0-9a-fA-F]{64}$/`, "must be 32 bytes"). -/
def hashPatternTest (s : String) : Bool :=
  match s.data with
  | '0' :: 'x' :: rest => rest.length == 64 && rest.all isHexDigit
  | _ => false

/-- Modelled from the spec: `WORD_PATTERN` — a valid identifier,
`/^[a-z][0-9a-z-]*$/` (same shape as the binding-name pattern written
literally in `_parse`). -/
def wordPatternTest (s : String) : Bool :=
  match s.data with
  | c :: rest => isLowerAZ c && rest.all (fun d => d.isDigit || isLowerAZ d || d == '-')
  | [] => false

/-- Modelled from the spec: `NUMERIC_PATTERN` — a decimal or hex
numeral, optionally in `<mantissa>e<exp>` form (the three shapes
`isConstant` distinguishes). -/
def numericPatternTest (s : String) : Bool :=
  match s.data with
  | '0' :: 'x' :: rest => !rest.isEmpty && rest.all isHexDigit
  | l =>
    (!l.isEmpty && l.all Char.isDigit) ||
    (match l.span Char.isDigit with
     | (ds, 'e' :: es) => !ds.isEmpty && !es.isEmpty && es.all Char.isDigit
     | _ => false)

/-- JS `BigInt(decimal).toString()`: canonical decimal form (drops
leading zeros). -/
def decimalCanon (s : String) : String :=
  match s.data.dropWhile (fun c => c == '0') with
  | [] => "0"
  | l => String.mk l

/-- Modelled from the spec: `DEFAULT_ELISION` of `languageTypes.ts`. -/
def defaultElision : String := "elided binding, requires rebinding"

/-! ## Tokenizers (`exclusiveParse` / `inclusiveParse` of `helpers.ts`,
modelled from the spec: "tokenize on whitespace", "text following each
`@` up to the next `@`, `#`, or end", with positions always into the
original text). -/

/-- Whitespace-splitting pass over the character list; `i` is the
current offset, `cur` an open token `(start, reversed chars)`. -/
def wsTokensAux : List Char → Nat → Option (Nat × List Char) →
    List (String × Nat × Nat) → List (String × Nat × Nat)
  | [], _, none, acc => acc.reverse
  | [], i, some (st, cur), acc =>
    ((String.mk cur.reverse, st, i - 1) :: acc).reverse
  | c :: rest, i, none, acc =>
    if jsIsSpace c then wsTokensAux rest (i + 1) none acc
    else wsTokensAux rest (i + 1) (some (i, [c])) acc
  | c :: rest, i, some (st, cur), acc =>
    if jsIsSpace c then
      wsTokensAux rest (i + 1) none ((String.mk cur.reverse, st, i - 1) :: acc)
    else wsTokensAux rest (i + 1) (some (st, c :: cur)) acc

/-- `exclusiveParse(str, /\s+/gd, offset)`: the non-whitespace tokens of
`str` with positions shifted by `base`. -/
def exclusiveParseWS (s : String) (base : Int) : List Chunk :=
  (wsTokensAux s.data 0 none []).map
    (fun t => (t.1, (base + (t.2.1 : Int), base + (t.2.2 : Int))))

/-- Splitting on every occurrence of a single character, keeping empty
chunks (`exclusiveParse(str, /@/gd, undefined, true)`); an empty chunk
after a separator at offset `k` gets position `[k+1, k]`. -/
def charSplitAux (ch : Char) : List Char → Nat → Nat → List Char →
    List (String × Nat × Nat) → List (String × Nat × Nat)
  | [], i, st, cur, acc => ((String.mk cur.reverse, st, i - 1) :: acc).reverse
  | c :: rest, i, st, cur, acc =>
    if c == ch then
      charSplitAux ch rest (i + 1) (i + 1) []
        ((String.mk cur.reverse, st, i - 1) :: acc)
    else charSplitAux ch rest (i + 1) st (c :: cur) acc

/-- `exclusiveParse(str, /<ch>/gd, undefined, true)`. -/
def exclusiveParseChar (ch : Char) (s : String) : List Chunk :=
  (charSplitAux ch s.data 0 0 [] []).map
    (fun t => (t.1, ((t.2.1 : Int), (t.2.2 : Int))))

/-- `fillIn(text, [a, b])`: blank out the inclusive span with
whitespace of identical length so offsets stay stable. -/
def fillIn (s : String) (span : Offsets) : String :=
  String.mk ((s.data.enum.map (fun p =>
    if span.1 ≤ (p.1 : Int) && (p.1 : Int) ≤ span.2 then ' ' else p.2)))

/-! ## Dependency extraction and the dependency-graph resolver
(`RainDocument.processDependencies`) -/

/-- The leading quote mark of a dependency reference. -/
def quoteChar : Char := Char.ofNat 39

/-- Consume one identifier segment `[a-z][0-9a-z-]*`. -/
def takeSeg : List Char → Option (List Char × List Char)
  | c :: rest =>
    if isLowerAZ c then
      let s := rest.span (fun d => d.isDigit || isLowerAZ d || d == '-')
      some (c :: s.1, s.2)
    else none
  | [] => none

/-- Greedily consume `(\.[a-z][0-9a-z-]*)*` (a dot is only consumed
when a fresh segment follows, as regex backtracking would leave a
trailing dot unconsumed). -/
def dotSegsAux : Nat → List Char → List Char × List Char
  | 0, l => ([], l)
  | fuel + 1, l =>
    match l with
    | '.' :: rest =>
      match takeSeg rest with
      | some (seg, rest') =>
        let r := dotSegsAux fuel rest'
        ('.' :: (seg ++ r.1), r.2)
      | none => ([], l)
    | _ => ([], l)

/-- Match the dependency-reference body `\.?[a-z][0-9a-z-]*(\.[a-z][0-9a-z-]*)*`
at the head of `l`, returning the matched characters and the rest. -/
def matchPath (l : List Char) : Option (List Char × List Char) :=
  match l with
  | '.' :: rest =>
    match takeSeg rest with
    | some (seg, rest') =>
      let r := dotSegsAux rest'.length rest'
      some ('.' :: (seg ++ r.1), r.2)
    | none => none
  | _ =>
    match takeSeg l with
    | some (seg, rest') =>
      let r := dotSegsAux rest'.length rest'
      some (seg ++ r.1, r.2)
    | none => none

/-- Left-to-right scan for all matches of
`/'\.?[a-z][0-9a-z-]*(\.[a-z][0-9a-z-]*)*/g`, each returned without its
leading quote (the `v.slice(1)` of `processDependencies`). -/
def depScanAux : Nat → List Char → List String
  | 0, _ => []
  | _ + 1, [] => []
  | fuel + 1, c :: rest =>
    if c == quoteChar then
      match matchPath rest with
      | some (tok, rest') => String.mk tok :: depScanAux fuel rest'
      | none => depScanAux fuel rest
    else depScanAux fuel rest

/-- All dependency references in a binding's content. -/
def findDeps (content : String) : List String :=
  depScanAux content.data.length content.data

/-- Failure of the external `toposort` npm package: a cyclic-dependency
error carrying an offending node's name (the package's
`Cyclic dependency, node was:"…"` message), or any other error (an
unknown node in the edge list). -/
inductive TopoErr where
  | cyclic (node : String)
  | unknown
  deriving DecidableEq, Repr

/-- Models the external `toposort` npm package's `toposort.array`:
topologically sort `nodes` along `edges` (`[a, b]` = `a` before `b`),
failing with `cyclic` when a cycle remains (the reported node's exact
choice only feeds the dead cycle-repair branch, see `depLoop`) and with
`unknown` when an edge endpoint is not a node. -/
def kahnAux : Nat → List String → List (String × String) → List String →
    Except TopoErr (List String)
  | 0, nodes, _, acc =>
    if nodes.isEmpty then .ok acc.reverse
    else .error (.cyclic (nodes.headD ""))
  | fuel + 1, nodes, edges, acc =>
    if nodes.isEmpty then .ok acc.reverse
    else
      match nodes.find? (fun n => edges.all (fun e => e.2 != n)) with
      | some n =>
        kahnAux fuel (nodes.erase n) (edges.filter (fun e => e.1 != n)) (n :: acc)
      | none => .error (.cyclic (nodes.headD ""))

/-- `toposort.array(nodes, edges)` (external npm package, modelled). -/
def toposortArr (nodes : List String) (edges : List (String × String)) :
    Except TopoErr (List String) :=
  if edges.any (fun e => !nodes.contains e.1 || !nodes.contains e.2) then
    .error .unknown
  else kahnAux nodes.length nodes edges []

/-- The "circular dependency" problem attached to a pruned binding. -/
def circularProblem (pos : Offsets) : Problem :=
  { msg := "circular dependency", position := pos, code := .CircularDependency }

/-- The document-level "cannot resolve dependencies" problem. -/
def cannotResolveProblem : Problem :=
  { msg := "cannot resolve dependencies", position := (0, -1),
    code := .UnresolvableDependencies }

/-- Transitive closure of referencers: starting from the offending node,
collect every node that (directly or indirectly) references into the
set (`nodesToDelete` worklist of `processDependencies`). -/
def closeRefsAux (edges : List (String × String)) :
    Nat → List String → Nat → List String
  | 0, acc, _ => acc
  | fuel + 1, acc, i =>
    match acc.get? i with
    | none => acc
    | some tgt =>
      let acc' := edges.foldl
        (fun a e => if e.2 == tgt && !a.contains e.1 then a ++ [e.1] else a) acc
      closeRefsAux edges fuel acc' (i + 1)

/-- `nodesToDelete` computation of the cycle-repair branch. -/
def closeRefs (edges : List (String × String)) (start : String) : List String :=
  closeRefsAux edges (edges.length + 1) [start] 0

/-- Attach a "circular dependency" problem to the first non-constant,
non-elided binding named `d` (the `_bindings.find` of the repair
branch). -/
def attachCircular : List Binding → String → List Binding
  | [], _ => []
  | b :: rest, d =>
    if b.constant.isNone && b.elided.isNone && b.name == d then
      { b with problems := b.problems ++ [circularProblem b.namePosition] } :: rest
    else b :: attachCircular rest d

/-- The `while` loop of `processDependencies`, transcribed with its
condition exactly as written in the source:
`while (!_nodes.length || !_edges.length)` — the body (toposort plus
cycle repair) runs only when the node list or the edge list is empty.
The fuel only bounds the (unreachable in practice) repair iterations;
the source would spin forever when the reported cycle node contains a
space, which the fuel cuts off. -/
def depLoop : Nat → List String → List (String × String) →
    List Binding → List Problem → List Binding × List Problem
  | 0, _, _, bs, ps => (bs, ps)
  | fuel + 1, nodes, edges, bs, ps =>
    if !(nodes.isEmpty || edges.isEmpty) then (bs, ps)
    else
      match toposortArr nodes edges with
      | .ok _ => (bs, ps)
      | .error .unknown => (bs, ps ++ [cannotResolveProblem])
      | .error (.cyclic errorExp) =>
        if errorExp.data.contains ' ' then depLoop fuel nodes edges bs ps
        else
          let del := closeRefs edges errorExp
          let edges' := edges.filter
            (fun v => !del.contains v.2 || !del.contains v.1)
          let nodes' := nodes.filter (fun v => !del.contains v)
          let bs' := del.foldl attachCircular bs
          depLoop fuel nodes' edges' bs' ps

/-- `RainDocument.processDependencies`: record each non-constant,
non-elided binding's dependency references and the corresponding graph
edges, then run the sort/repair loop; returns the updated bindings and
the document-level problems the stage adds. -/
def processDependencies (bindings : List Binding) : List Binding × List Problem :=
  let upd := bindings.map (fun b =>
    if b.constant.isNone && b.elided.isNone then
      { b with dependencies := b.dependencies ++ findDeps b.content }
    else b)
  let act := upd.filter (fun b => b.constant.isNone && b.elided.isNone)
  let nodes := act.map (·.name)
  let edges := act.flatMap (fun b => (findDeps b.content).map (fun d => (b.name, d)))
  depLoop (nodes.length + 2) nodes edges upd []

/-! ## Namespace Tree Engine (`mergeNamespace`, `copyNamespace`,
`getWords`) -/

/-- JS `string.includes(pat)` on character lists. -/
def listInfix (pat : List Char) : List Char → Bool
  | [] => pat.isEmpty
  | l@(_ :: rest) => pat.isPrefixOf l || listInfix pat rest

/-- The conflict message for a leaf/leaf or leaf/interior collision. -/
def occupiedMsg : String := "cannot import into an occupied namespace"

/-- The conflict message for colliding distinct-hash word sets. -/
def wordsMsg : String := "namespace already contains a set of words"

/-- Leaf/leaf compatibility of the `_check` pairwise loop:
`some msg` is an early `return msg`, `none` falls through to the next
pair. `dupWords` tells whether the enclosing level saw same-hash `Words`
on both sides. -/
def leafPairVerdict (dupWords : Bool) (nv cv : NSNode) : Option String :=
  if !nv.isWord || !cv.isWord then
    if (nv.isBinding && cv.isBinding) ||
       (nv.isContextAlias && cv.isContextAlias) then
      if nv.hashOf ≠ cv.hashOf then some "duplicate identifier" else none
    else some "duplicate identifier"
  else if !dupWords then some wordsMsg else none

/-- The pairwise key loop of `_check` over the incoming entries `nl`
against the existing map `cm`; a recursive call into a common interior
key inlines the head of `_check` (the empty-map shortcut and the
`Words` special case) so that every recursive call is structurally
smaller. -/
def checkPairs (dupWords : Bool) : NSMap → NSMap → String
  | .nil, _ => "ok"
  | .cons k nv rest, cm =>
    match cm.lookup k with
    | none => checkPairs dupWords rest cm
    | some cv =>
      match nv, cv with
      | .node nm, .node cm2 =>
        -- `_check(nns[k], cns[k])` for a common interior key
        let r :=
          if cm2.isEmpty then "ok"
          else
            match cm2.lookup "Words", nm.lookup "Words" with
            | some cw, some nw =>
              if nw.hashOf ≠ cw.hashOf then wordsMsg
              else checkPairs true nm cm2
            | _, _ => checkPairs false nm cm2
        if r = "ok" then checkPairs dupWords rest cm else r
      | .leaf _, .leaf _ =>
        match leafPairVerdict dupWords nv cv with
        | some e => e
        | none => checkPairs dupWords rest cm
      | _, _ => occupiedMsg

/-- The pure `_check` of `mergeNamespace`: compare the incoming
namespace `nns` against the existing subtree `cns` and return `"ok"` or
the first conflict message. -/
def checkNS (nns : NSMap) (cns : NSNode) : String :=
  match cns with
  | .leaf _ => occupiedMsg
  | .node cm =>
    if cm.isEmpty then "ok"
    else
      match cm.lookup "Words", nns.lookup "Words" with
      | some cw, some nw =>
        if nw.hashOf ≠ cw.hashOf then wordsMsg
        else checkPairs true nns cm
      | _, _ => checkPairs false nns cm

/-- The `_merge` loop of `mergeNamespace`, iterating the incoming
entries against the key set `okeys` captured at entry
(`const _cKeys = Object.keys(cns)` is computed once, before the loop
starts mutating `cns`): absent keys are appended, common interior keys
recurse. A common key whose incoming side is a leaf, or whose existing
side is a leaf while the incoming side is interior, is left untouched
(the latter is unreachable once `_check` returned `"ok"`). -/
def mergeInto (okeys : List String) : NSMap → NSMap → NSMap
  | .nil, cm => cm
  | .cons k nv rest, cm =>
    let cm' :=
      if !okeys.contains k then cm.append (.cons k nv .nil)
      else
        match nv, cm.lookup k with
        | .node nm, some (.node cm2) => cm.set k (.node (mergeInto cm2.keys nm cm2))
        | _, _ => cm
    mergeInto okeys rest cm'

/-- `_merge(nns, cns)`: merge the incoming map into the existing one
(only ever invoked after `_check` returned `"ok"`). -/
def mergeNS (nns cm : NSMap) : NSMap := mergeInto cm.keys nns cm

/-- `RainDocument.copyNamespace`: re-key every leaf with the importing
document's import index, substituting the import hash for an empty leaf
hash; note the source drops the extra `bytecode` field of a `Words`
leaf in the copy. -/
def copyNamespace : NSMap → Int → String → NSMap
  | .nil, _, _ => .nil
  | .cons k v rest, idx, hash =>
    match v with
    | .leaf l =>
      .cons k (.leaf { Hash := if l.Hash ≠ "" then l.Hash else hash,
                       ImportIndex := idx, Element := l.Element })
        (copyNamespace rest idx hash)
    | .node m =>
      .cons k (.node (copyNamespace m idx hash)) (copyNamespace rest idx hash)

/-- `mergeNamespace(imp, ns)` expressed on the document's root
namespace: returns the updated root namespace together with the problems
pushed (at most one). An import named `"."` merges into the root,
otherwise into (a possibly just-created) child `imp.name`; on a
non-`"ok"` check the single coded diagnostic is recorded at that
hash position of the import and a just-created empty child is deleted
again. -/
def mergeNamespaceOp (name : String) (hashPosition : Offsets)
    (ns : NSMap) (root : NSMap) : NSMap × List Problem :=
  let root1 := if name = "." then root
    else if root.hasKey name then root else root.assign name (.node .nil)
  let target : NSNode := if name = "." then .node root1
    else (root1.lookup name).getD (.node .nil)
  let verdict := checkNS ns target
  if verdict = "ok" then
    if name = "." then
      (mergeNS ns root1, [])
    else
      match root1.lookup name with
      | some (.node cm) => (root1.set name (.node (mergeNS ns cm)), [])
      | _ => (root1, [])  -- unreachable: a leaf target fails the check
  else
    let code := if listInfix "identifier".data verdict.data then
        ErrorCode.DuplicateIdentifier
      else if listInfix "words".data verdict.data then ErrorCode.MultipleWords
      else ErrorCode.InvalidImport
    let root2 := if name = "." then root1
      else match root1.lookup name with
        | some (.node m) => if m.isEmpty then root1.erase name else root1
        | _ => root1
    (root2, [{ msg := verdict, position := hashPosition, code := code }])

/-! ## Word-set discovery (`RainDocument.getWords`) -/

/-- JS `node.Hash as string` where the node is expected to be a leaf
(`""` stands in for the unreachable interior case). -/
def NSNode.hashStr (n : NSNode) : String := n.hashOf.getD ""

/-- Outcome of the `ns["Words"]` head step of `_validate`: either an
early `return [++_c, hash]` or the `(count, hash)` state to carry into
the children loop. -/
inductive WordsStep where
  | earlyRet (r : Nat × String)
  | cont (c : Nat) (h : String)

/-- The head of `_validate`: account for this namespace's own `Words`
node. -/
def wordsStep (m : NSMap) (h : String) : WordsStep :=
  match m.lookup "Words" with
  | none => .cont 0 h
  | some w =>
    if h = "" then .cont 1 w.hashStr
    else if jsToLower w.hashStr ≠ jsToLower h then .earlyRet (1, h)
    else .cont 0 h

/-- The children loop of `_validate` (over the interior-node values in
insertion order, threading the first-found hash, accumulating the count
and breaking once it exceeds one); the recursive `_validate` call on a
child is inlined via `wordsStep` so recursion stays structural. -/
def validateChildren : NSMap → Nat → String → Nat × String
  | .nil, c, h => (c, h)
  | .cons _ v rest, c, h =>
    match v with
    | .leaf _ => validateChildren rest c h
    | .node m =>
      let t :=
        match wordsStep m h with
        | .earlyRet r => r
        | .cont c0 h0 => validateChildren m c0 h0
      let c' := c + t.1
      let h' := t.2
      if c' > 1 then (c', h') else validateChildren rest c' h'

/-- `_validate(ns, hash)` of `getWords`: count the reachable word sets,
counting a set only when its hash differs (case-insensitively) from the
first-found hash, with an early cutoff above one. -/
def validateWords (ns : NSMap) (h : String) : Nat × String :=
  match wordsStep ns h with
  | .earlyRet r => r
  | .cont c0 h0 => validateChildren ns c0 h0

/-- The child loop of `_get`: search the interior entries in order for
the first namespace holding a `Words` node, returning the relative path
segments and that node. -/
def searchWordsChildren : NSMap → Option (List String × NSNode)
  | .nil => none
  | .cons k v rest =>
    match v with
    | .leaf _ => searchWordsChildren rest
    | .node m =>
      let r :=
        match m.lookup "Words" with
        | some w => some (([] : List String), w)
        | none => searchWordsChildren m
      match r with
      | some (segs, w) => some (k :: segs, w)
      | none => searchWordsChildren rest

/-- The `Words` node `_get` stops at (whose element and bytecode are
exposed). -/
def getWordsNode (ns : NSMap) : Option NSNode :=
  match ns.lookup "Words" with
  | some w => some w
  | none => (searchWordsChildren ns).map (·.2)

/-- The final `authoringMetaPath`: `_get` returns `""` for a root-level
set (mapped to `"."`) and otherwise `"" + "." + <joined segments>`,
keeping the leading dot the source produces. -/
def getWordsPathString (ns : NSMap) : String :=
  match ns.lookup "Words" with
  | some _ => "."
  | none =>
    match searchWordsChildren ns with
    | some (segs, _) => "." ++ String.intercalate "." segs
    | none => "."

/-- What `getWords` assigns: problems plus the working word set. -/
structure WordsResult where
  problems : List Problem := []
  authoringMeta : List Authoring := []
  bytecode : Option String := some ""
  authoringMetaPath : String := ""
  deriving DecidableEq, Repr

/-- The "words must be singleton" problem, reporting the computed
count. -/
def singletonProblem (c : Nat) : Problem :=
  { msg := "words must be singleton, but namespaces include " ++
      toString c ++ " sets of words",
    position := (0, -1), code := .SingletonWords }

/-- The "cannot find any set of words" problem. -/
def cannotFindWordsProblem : Problem :=
  { msg := "cannot find any set of words", position := (0, -1),
    code := .UndefinedDISpair }

/-- `RainDocument.getWords`: validate the merged root namespace's word
sets and, in the singleton case, expose the found set's authoring
metadata, bytecode (`none` models the `undefined` a bytecode-less
`Words` copy yields) and dotted namespace path. -/
def getWords (ns : NSMap) : WordsResult :=
  let c := (validateWords ns "").1
  if c > 1 then { problems := [singletonProblem c] }
  else if c = 0 then { problems := [cannotFindWordsProblem] }
  else
    match getWordsNode ns with
    | some (.leaf l) =>
      { authoringMeta := (match l.Element with | .words ams => ams | _ => []),
        bytecode := l.bytecode,
        authoringMetaPath := getWordsPathString ns }
    | _ =>  -- unreachable: a count of one guarantees a Words leaf
      { authoringMetaPath := getWordsPathString ns }

/-! ## Imports: data model, reconfiguration directives, per-import
namespace construction and merge (`_parse` lines 836–1019) -/

/-- The word-set payload of an import's sequence
(`sequence.dispair`). -/
structure Dispair where
  bytecode : String
  authoringMeta : List Authoring
  deriving DecidableEq, Repr

/-- The nested-document payload of an import's sequence
(`sequence.dotrain`), reduced to the fields the parent reads: the nested
document's resolved namespace and its problems. -/
structure DotrainRef where
  nspace : NSMap
  problems : List Problem

/-- `AST.Import.sequence`: up to three parsed payloads keyed by
metadata kind. -/
structure Sequence where
  dispair : Option Dispair := none
  ctxmeta : Option (List ContextAlias) := none
  dotrain : Option DotrainRef := none

/-- The empty sequence (`{}`). -/
def Sequence.empty : Sequence := {}

/-- `AST.Import`. -/
structure Import where
  name : String := "."
  hash : String := ""
  namePosition : Offsets
  hashPosition : Offsets
  position : Offsets
  problems : List Problem := []
  reconfigs : Option (List (Chunk × Option Chunk)) := none
  reconfigProblems : Option (List Problem) := none
  sequence : Option Sequence := none

/-- `RainDocument.isDeepImport`: does the import's nested document
report a deep-import problem of its own? -/
def isDeepImport (imp : Import) : Bool :=
  match imp.sequence with
  | some { dotrain := some rd, .. } =>
    rd.problems.any (fun v => v.code == .DeepImport)
  | _ => false

/-- Does the chunk text start with the rename quote mark? -/
def startsWithQuote (s : String) : Bool :=
  match s.data with
  | c :: _ => c == quoteChar
  | [] => false

/-- Apply one reconfiguration directive `(s0, s1)` to the import's
just-built namespace, returning the updated namespace and the problems
pushed (to the document's problem list). -/
def applyReconfig (ns : NSMap) (s0 s1 : Chunk) : NSMap × List Problem :=
  if s1.1 = "!" then
    if s0.1 = "." then
      match ns.lookup "Words" with
      | some w =>
        let ns1 :=
          match w with
          | .leaf { Element := .words ams, .. } =>
            ams.foldl (fun (m : NSMap) (a : Authoring) => m.erase a.word) ns
          | _ => ns
        (ns1.erase "Words", [])
      | none =>
        (ns, [{ msg := "cannot elide undefined words",
                position := (s0.2.1, s1.2.2), code := .UndefinedDISpair }])
    else
      match ns.lookup s0.1 with
      | some v =>
        if v.isWord then
          (ns, [{ msg := "cannot elide single word: \"" ++ s0.1 ++ "\"",
                  position := (s0.2.1, s1.2.2), code := .SingleWordModify }])
        else (ns.erase s0.1, [])
      | none =>
        (ns, [{ msg := "undefined identifier \"" ++ s0.1 ++ "\"",
                position := s0.2, code := .UndefinedIdentifier }])
  else
    let key := if startsWithQuote s0.1 then strDropOne s0.1 else s0.1
    match ns.lookup key with
    | some v =>
      if v.isWord then
        (ns, [{ msg := "cannot rename or rebind single word: \"" ++ s0.1 ++ "\"",
                position := (s0.2.1, s1.2.2), code := .SingleWordModify }])
      else if startsWithQuote s0.1 then
        match ns.lookup s1.1 with
        | some _ =>
          (ns, [{ msg := "cannot rename, name \"" ++ s1.1 ++ "\" already exists",
                  position := s1.2, code := .DuplicateIdentifier }])
        | none => ((ns.assign s1.1 v).erase key, [])
      else
        match v with
        | .leaf l =>
          match l.Element with
          | .binding b =>
            let b' : Binding :=
              { b with constant := some s1.1, elided := none, exp := none }
            (ns.set key (.leaf { l with Element := .binding b' }), [])
          | _ =>
            (ns, [{ msg := "unexpected rebinding",
                    position := (s0.2.1, s1.2.2), code := .UnexpectedRebinding }])
        | .node _ =>
          (ns, [{ msg := "unexpected rebinding",
                  position := (s0.2.1, s1.2.2), code := .UnexpectedRebinding }])
    | none =>
      (ns, [{ msg := "undefined identifier \"" ++ key ++ "\"",
              position := s0.2, code := .UndefinedIdentifier }])

/-- The reconfiguration loop of `_parse`: apply each directive in order
(directives whose action token is missing are skipped by the
`_s[1] !== undefined` guard). -/
def applyReconfigs : List (Chunk × Option Chunk) → NSMap → NSMap × List Problem
  | [], ns => (ns, [])
  | (s0, os1) :: rest, ns =>
    match os1 with
    | none => applyReconfigs rest ns
    | some s1 =>
      let r := applyReconfig ns s0 s1
      let r2 := applyReconfigs rest r.1
      (r2.1, r.2 ++ r2.2)

/-- Modelled from the spec: `hasDuplicate` of `helpers.ts` (not among
the provided sources) — do the two candidate key lists, taken together,
contain a duplicate identifier? -/
def hasDuplicate (a b : List String) : Bool :=
  !(a ++ b).Nodup

/-- Build the namespace contribution `_ns` of one import (sequence
payloads → namespace entries), returning it together with the
`_hasDupKeys` / `_hasDupWords` flags. -/
def buildImportNS (i : Int) (imp : Import) : NSMap × Bool × Bool :=
  let seq := imp.sequence.getD {}
  let ns0 : NSMap :=
    match seq.dispair with
    | some d =>
      let base : NSMap := .cons "Words"
        (.leaf { Hash := imp.hash, ImportIndex := i,
                 Element := .words d.authoringMeta,
                 bytecode := some d.bytecode }) .nil
      d.authoringMeta.foldl (fun m v => m.assign v.word
        (.leaf { Hash := imp.hash, ImportIndex := i, Element := .word v })) base
    | none => .nil
  let ctx := seq.ctxmeta
  let dupK1 :=
    match ctx with
    | some cm => hasDuplicate (cm.map (·.name)) ns0.keys
    | none => false
  let ns1 :=
    match ctx with
    | some cm =>
      if dupK1 then ns0
      else cm.foldl (fun m v => m.assign v.name
        (.leaf { Hash := imp.hash, ImportIndex := i, Element := .contextAlias v })) ns0
    | none => ns0
  match seq.dotrain with
  | some rd =>
    if !dupK1 then
      let dkeys := rd.nspace.keys
      if ns1.hasKey "Words" && dkeys.contains "Words" then (ns1, dupK1, true)
      else if hasDuplicate dkeys ns1.keys then (ns1, true, false)
      else (ns1.append (copyNamespace rd.nspace i imp.hash), dupK1, false)
    else (ns1, dupK1, false)
  | none => (ns1, dupK1, false)

/-- One iteration of the import-merge loop of `_parse` (lines 836–1019)
for the import at index `i`: runs only the body guarded by
`imports[i].problems.length === 0`; returns the updated root namespace
and the problems pushed. -/
def mergeStepBody (i : Int) (imp : Import) (root : NSMap) : NSMap × List Problem :=
  match root.lookup imp.name with
  | some (.leaf _) =>
    (root, [{ msg := "cannot import into \"" ++ imp.name ++ "\", name already taken",
              position := imp.namePosition, code := .InvalidImport }])
  | _ =>
    if isDeepImport imp then
      (root, [{ msg := "import too deep", position := imp.hashPosition,
                code := .DeepImport }])
    else
      let b := buildImportNS i imp
      let ns := b.1
      let dupK := b.2.1
      let dupW := b.2.2
      if dupK || dupW then
        let p : Problem :=
          if dupK then
            { msg := "import contains items with duplicate identifiers",
              position := imp.hashPosition, code := .DuplicateIdentifier }
          else
            { msg := "import contains multiple sets of words in its namespace",
              position := imp.hashPosition, code := .MultipleWords }
        let r := mergeNamespaceOp imp.name imp.hashPosition ns root
        (r.1, [p] ++ r.2)
      else
        let rc := applyReconfigs (imp.reconfigs.getD []) ns
        let r := mergeNamespaceOp imp.name imp.hashPosition rc.1 root
        (r.1, rc.2 ++ r.2)

/-- One guarded iteration of the import-merge loop: imports that already
carry problems of their own are skipped entirely. -/
def mergeStep (i : Int) (imp : Import) (root : NSMap) : NSMap × List Problem :=
  if imp.problems.isEmpty then mergeStepBody i imp root else (root, [])

/-- The whole import-merge loop over the imports in source order
(`for (let i = 0; i < this.imports.length; i++)`). -/
def mergeLoopAux (i : Int) : List Import → NSMap → NSMap × List Problem
  | [], root => (root, [])
  | imp :: rest, root =>
    let r := mergeStep i imp root
    let r2 := mergeLoopAux (i + 1) rest r.1
    (r2.1, r.2 ++ r2.2)

/-- The import-merge loop starting at index zero. -/
def mergeLoop (imports : List Import) (root : NSMap) : NSMap × List Problem :=
  mergeLoopAux 0 imports root

/-! ## Import statement processing (`processImportConfigs`,
`processMeta`, `processImport`, and the depth-gated import stage) -/

/-- The duplicate-statement lookup of `processImportConfigs`
(`_reconfigs.find(v => v[0][0] === key && v[1][0] === next)`; a stored
pair with a missing action token would make the JS throw on `v[1][0]`,
which cannot be reached with a matching key — modelled as no match). -/
def dupStatement (acc : List (Chunk × Option Chunk)) (key next : Chunk) : Bool :=
  acc.any (fun v => v.1.1 == key.1 &&
    (match v.2 with | some s => s.1 == next.1 | none => false))

/-- The "duplicate statement" problem. -/
def dupStatementProblem (key next : Chunk) : Problem :=
  { msg := "duplicate statement", position := (key.2.1, next.2.2),
    code := .DuplicateImportStatement }

/-- The "unexpected token" problem at a chunk's position. -/
def unexpectedTokenProblem (pos : Offsets) : Problem :=
  { msg := "unexpected token", position := pos, code := .UnexpectedToken }

/-- The "invalid word pattern" problem at a position. -/
def invalidWordProblem (pos : Offsets) : Problem :=
  { msg := "invalid word pattern", position := pos, code := .InvalidWordPattern }

/-- `RainDocument.processImportConfigs`: parse the remaining chunks of
an import statement into reconfiguration pairs plus their syntax
problems, threading the accumulated pairs for the duplicate check. -/
def processImportConfigsAux (acc : List (Chunk × Option Chunk))
    (probs : List Problem) :
    List Chunk → List (Chunk × Option Chunk) × List Problem
  | [] => (acc, probs)
  | c :: rest =>
    if c.1 = "." then
      match rest with
      | next :: rest2 =>
        let p :=
          if next.1 = "!" then
            if dupStatement acc c next then [dupStatementProblem c next] else []
          else [unexpectedTokenProblem next.2]
        processImportConfigsAux (acc ++ [(c, some next)]) (probs ++ p) rest2
      | [] =>
        processImportConfigsAux (acc ++ [(c, none)])
          (probs ++ [{ msg := "expected elision syntax", position := c.2,
                       code := .ExpectedElisionOrRebinding }]) []
    else if wordPatternTest c.1 then
      match rest with
      | next :: rest2 =>
        let p :=
          if numericPatternTest next.1 || next.1 = "!" then
            if dupStatement acc c next then [dupStatementProblem c next] else []
          else [unexpectedTokenProblem next.2]
        processImportConfigsAux (acc ++ [(c, some next)]) (probs ++ p) rest2
      | [] =>
        processImportConfigsAux (acc ++ [(c, none)])
          (probs ++ [{ msg := "expected rebinding or elision", position := c.2,
                       code := .ExpectedElisionOrRebinding }]) []
    else if startsWithQuote c.1 then
      if wordPatternTest (strDropOne c.1) then
        match rest with
        | next :: rest2 =>
          let p :=
            if wordPatternTest next.1 then
              if dupStatement acc c next then [dupStatementProblem c next] else []
            else [invalidWordProblem next.2]
          processImportConfigsAux (acc ++ [(c, some next)]) (probs ++ p) rest2
        | [] =>
          processImportConfigsAux (acc ++ [(c, none)])
            (probs ++ [{ msg := "expected name", position := c.2,
                         code := .ExpectedName }]) []
      else
        match rest with
        | next :: rest2 =>
          processImportConfigsAux (acc ++ [(c, some next)])
            (probs ++ [invalidWordProblem c.2]) rest2
        | [] =>
          processImportConfigsAux (acc ++ [(c, none)])
            (probs ++ [invalidWordProblem c.2]) []
    else
      match rest with
      | next :: rest2 =>
        processImportConfigsAux (acc ++ [(c, some next)])
          (probs ++ [unexpectedTokenProblem c.2]) rest2
      | [] =>
        processImportConfigsAux (acc ++ [(c, none)])
          (probs ++ [unexpectedTokenProblem c.2]) []

/-- `processImportConfigs` from the start state. -/
def processImportConfigs (chunks : List Chunk) :
    List (Chunk × Option Chunk) × List Problem :=
  processImportConfigsAux [] [] chunks

/-- One payload assignment a successful `processMeta` branch performs on
the import's `sequence`. -/
inductive SeqDelta where
  | dispair (d : Dispair)
  | ctxmeta (l : List ContextAlias)
  | dotrain (r : DotrainRef)

/-- Apply a payload assignment to a sequence. -/
def SeqDelta.apply : SeqDelta → Sequence → Sequence
  | .dispair d, s => { s with dispair := some d }
  | .ctxmeta l, s => { s with ctxmeta := some l }
  | .dotrain r, s => { s with dotrain := some r }

/-- What one `processMeta(imp, metamap)` call does, as data supplied by
the environment (its body is dominated by the external meta library and
bytecode execution): problems it pushes onto the import, problems it
pushes onto the document, and the sequence assignment — `none` models a
`Promise.reject()`. -/
structure MetaOutcome where
  impProblems : List Problem := []
  docProblems : List Problem := []
  delta : Option SeqDelta := none

/-- The known metadata magic numbers `processImport` sorts by. -/
inductive MetaMagic where
  | deployerBytecode
  | contractMeta
  | dotrainMeta
  deriving DecidableEq, Repr

/-- One decoded meta map of an import's fetched payload: its magic
number and the modelled outcome of `processMeta` on it. -/
structure MetaMapModel where
  magic : MetaMagic
  outcome : MetaOutcome

/-- One cached metadata record, as the external meta store/decoder pair
presents it to `processImport`: `maps = none` models `Meta.decode`
throwing, `consumable` models `isConsumableMeta`. -/
structure MetaRecord where
  maps : Option (List MetaMapModel) := none
  consumable : Bool := false

/-- The "corrupt meta" problem at the import's hash position. -/
def corruptMetaProblem (hashPos : Offsets) : Problem :=
  { msg := "corrupt meta", position := hashPos, code := .CorruptMeta }

/-- Lines 739–751 of `processImport`: run the classification branches
over the sorted meta maps (single-threaded model: the spec's §5
determinism contract); if every branch resolves the sequence is the
fold of their assignments over the fresh `{}`, and if any branch
rejects the sequence is reset to `{}` and a single "corrupt meta"
problem is pushed. Returns `(sequence, problems added to the import,
problems added to the document)`. -/
def applyMetaResults (hashPos : Offsets) (outcomes : List MetaOutcome) :
    Sequence × List Problem × List Problem :=
  let impPs := outcomes.flatMap (·.impProblems)
  let docPs := outcomes.flatMap (·.docProblems)
  if outcomes.any (fun o => o.delta.isNone) then
    (Sequence.empty, impPs ++ [corruptMetaProblem hashPos], docPs)
  else
    (outcomes.foldl (fun s o => (o.delta.map (·.apply s)).getD s) Sequence.empty,
     impPs, docPs)

/-- The magic-number bucketing of `processImport` (bytecode payloads
first, then contract metas, then nested documents). -/
def sortMetaMaps (maps : List MetaMapModel) : List MetaMapModel :=
  maps.filter (fun m => m.magic == .deployerBytecode) ++
  maps.filter (fun m => m.magic == .contractMeta) ++
  maps.filter (fun m => m.magic == .dotrainMeta)

/-- `RainDocument.processImport` on one raw import statement chunk:
tokenize the statement, parse name/hash, parse the reconfiguration
chunks, and run the metadata pipeline against the store model; returns
the assembled import and the problems pushed onto the document's list
(`this.problems.push(..._result.problems, ...reconfigProblems)` plus the
document-level pushes of `processMeta`). -/
def processImportModel (metaOf : String → Option MetaRecord) (imp : Chunk) :
    Import × List Problem :=
  let atPos : Offsets := (imp.2.1 - 1, imp.2.1 - 1)
  let base : Import :=
    { name := ".", hash := "", namePosition := atPos, hashPosition := atPos,
      position := (imp.2.1 - 1, imp.2.2), problems := [] }
  let chunks := exclusiveParseWS imp.1 imp.2.1
  match chunks with
  | [] =>
    let p : Problem := { msg := "expected a valid name or hash",
                         position := atPos, code := .InvalidImport }
    let r := { base with problems := [p] }
    (r, r.problems)
  | first :: restChunks =>
    -- name/hash from the first token
    let s1 : Import × Bool :=  -- (state, was a meta fetch requested)
      if !hexPatternTest first.1 then
        ({ base with
             name := first.1, namePosition := first.2,
             problems := if !wordPatternTest first.1
               then [invalidWordProblem first.2] else [] }, false)
      else if hashPatternTest first.1 then
        ({ base with
             name := ".", namePosition := first.2,
             hash := jsToLower first.1, hashPosition := first.2 }, true)
      else
        ({ base with
             name := ".", namePosition := first.2,
             problems := [{ msg := "invalid hash, must be 32 bytes",
                            position := first.2, code := .ExpectedHash }] },
         false)
    -- the explicit hash token when a name was given
    let s2 : Import × Bool × List Chunk :=
      if s1.1.name ≠ "." then
        match restChunks with
        | h :: rest2 =>
          if hexPatternTest h.1 then
            if !hashPatternTest h.1 then
              ({ s1.1 with problems := s1.1.problems ++
                 [{ msg := "invalid hash, must be 32 bytes", position := h.2,
                    code := .InvalidHash }] }, s1.2, rest2)
            else
              ({ s1.1 with hash := jsToLower h.1, hashPosition := h.2 },
               true, rest2)
          else
            ({ s1.1 with problems := s1.1.problems ++
               [{ msg := "expected hash", position := h.2,
                  code := .ExpectedHash }] }, s1.2, rest2)
        | [] =>
          ({ s1.1 with problems := s1.1.problems ++
             [{ msg := "expected import hash", position := atPos,
                code := .ExpectedHash }] }, s1.2, [])
      else (s1.1, s1.2, restChunks)
    let cfg := processImportConfigs s2.2.2
    let st := { s2.1 with
                  reconfigs := some cfg.1,
                  reconfigProblems := some cfg.2 }
    -- metadata pipeline (only when a valid hash registered a fetch)
    let m : Import × List Problem :=
      if s2.2.1 then
        match metaOf st.hash with
        | none =>
          ({ st with problems := st.problems ++
             [{ msg := "cannot find any settlement for hash: " ++ st.hash,
                position := st.hashPosition, code := .UndefinedMeta }] }, [])
        | some rec =>
          match rec.maps with
          | none =>
            ({ st with problems := st.problems ++
               [corruptMetaProblem st.hashPosition] }, [])
          | some maps =>
            if !rec.consumable then
              ({ st with problems := st.problems ++
                 [{ msg := "inconsumable import", position := st.hashPosition,
                    code := .InconsumableMeta }] }, [])
            else
              let rr := applyMetaResults st.hashPosition
                ((sortMetaMaps maps).map (·.outcome))
              ({ st with
                   sequence := some rr.1,
                   problems := st.problems ++ rr.2.1 }, rr.2.2)
      else (st, [])
    (m.1, m.2 ++ m.1.problems ++ cfg.2)

/-- The "import too deep" problem the depth gate attaches at a raw
statement position (`[imp[1][0] - 1, imp[1][1]]`). -/
def deepImportProblem (stmt : Chunk) : Problem :=
  { msg := "import too deep", position := (stmt.2.1 - 1, stmt.2.2),
    code := .DeepImport }

/-- The duplicate-import problem at an import's hash position. -/
def duplicateImportProblem (hashPos : Offsets) : Problem :=
  { msg := "duplicate import", position := hashPos, code := .DuplicateImport }

/-- The duplicate-import detection loop run over the processed imports
in source order (accumulating into `this.imports`). -/
def dedupImports (acc : List Import) (ps : List Problem) :
    List (Import × List Problem) → List Import × List Problem
  | [] => (acc, ps)
  | (imp, _) :: rest =>
    if imp.hash ≠ "" && acc.any (fun v => v.hash == imp.hash) then
      dedupImports
        (acc ++ [{ imp with problems := imp.problems ++
          [duplicateImportProblem imp.hashPosition] }])
        (ps ++ [duplicateImportProblem imp.hashPosition]) rest
    else dedupImports (acc ++ [imp]) ps rest

/-- Lines 813–834 of `_parse`: the depth-gated import stage. Below the
bound every raw statement is processed and the results are deduped; at
depth 32 or deeper no import is processed at all and each raw statement
only yields an "import too deep" problem at the statement's position. -/
def importStage (metaOf : String → Option MetaRecord) (depth : Nat)
    (stmts : List Chunk) : List Import × List Problem :=
  if depth < 32 then
    let results := stmts.map (processImportModel metaOf)
    let docPs := results.flatMap (·.2)
    dedupImports [] docPs results
  else
    ([], stmts.map deepImportProblem)

/-! ## Comment scanning, binding extraction, expression assignment and
the ignore-next-line filter -/

/-- Consume characters up to and including a closing `*/` (or to the
end); returns the consumed characters, the rest, and whether a close was
found. -/
def takeUntilClose : List Char → List Char × List Char × Bool
  | [] => ([], [], false)
  | '*' :: '/' :: rest => (['*', '/'], rest, true)
  | c :: rest =>
    let r := takeUntilClose rest
    (c :: r.1, r.2.1, r.2.2)

/-- `inclusiveParse(document, /\/\*[^]*?(?:\*\/|$)/gd)`: every comment
span (non-greedy to the first `*/`, or to the end when unterminated)
with its inclusive offsets. -/
def scanCommentsAux : Nat → List Char → Nat → List (String × Nat × Nat)
  | 0, _, _ => []
  | fuel + 1, l, i =>
    match l with
    | '/' :: '*' :: rest =>
      let r := takeUntilClose rest
      let text := '/' :: '*' :: r.1
      (String.mk text, i, i + text.length - 1) ::
        scanCommentsAux fuel r.2.1 (i + text.length)
    | _ :: rest => scanCommentsAux fuel rest (i + 1)
    | [] => []

/-- Does the comment text end with `*/`? -/
def endsWithClose (s : String) : Bool :=
  match s.data.reverse with
  | '/' :: '*' :: _ => true
  | _ => false

/-- The comment pass of `_parse`: collect comment spans, report
unterminated ones, and blank them out of the working document. -/
def commentsStage (text : String) : List Comment × List Problem × String :=
  let raw := scanCommentsAux text.data.length text.data 0
  let comments := raw.map (fun t =>
    { comment := t.1, position := ((t.2.1 : Int), (t.2.2 : Int)) })
  let problems := raw.filterMap (fun t =>
    if !endsWithClose t.1 then
      some { msg := "unexpected end of comment",
             position := ((t.2.1 : Int), (t.2.2 : Int)),
             code := ErrorCode.UnexpectedEndOfComment }
    else none)
  let doc := raw.foldl (fun d t => fillIn d ((t.2.1 : Int), (t.2.2 : Int))) text
  (comments, problems, doc)

/-- Lines 800–812 of `_parse`: isolate the raw import statements (text
after each `@`, cut at a `#`), blanking each consumed span (including
the `@`) out of the working document. -/
def importStatementsOf (document : String) : List Chunk × String :=
  let raw := (exclusiveParseChar '@' document).drop 1
  raw.foldl (fun (acc : List Chunk × String) s =>
    let s' : Chunk :=
      match s.1.data.findIdx? (· == '#') with
      | some i => (String.mk (s.1.data.take i), (s.2.1, s.2.1 + (i : Int) - 1))
      | none => s
    (acc.1 ++ [s'], fillIn acc.2 (s'.2.1 - 1, s'.2.2))) ([], document)

/-- JS `String.trim()` with tracked deletion counts (`trackedTrim` of
`helpers.ts`, modelled from the spec's "whitespace-delimited"
handling). -/
structure Trimmed where
  text : String
  startDel : Nat
  endDel : Nat
  deriving DecidableEq, Repr

/-- `trackedTrim`. -/
def trackedTrim (s : String) : Trimmed :=
  let l := s.data
  let pre := l.takeWhile jsIsSpace
  let mid1 := l.drop pre.length
  let suf := mid1.reverse.takeWhile jsIsSpace
  let mid := mid1.take (mid1.length - suf.length)
  { text := String.mk mid, startDel := pre.length, endDel := suf.length }

/-- JS `String.trim()`. -/
def jsTrim (s : String) : String := (trackedTrim s).text

/-- `RainDocument.isElided`: does the (comment-blanked) content start
with `!` after trimming? -/
def isElided (text : String) : Bool :=
  match (jsTrim text).data with
  | '!' :: _ => true
  | _ => false

/-- `/^[1-9]\d*e\d+$/` of `isConstant`. -/
def eNotTest (s : String) : Bool :=
  match s.data with
  | c :: rest =>
    ('1' ≤ c && c ≤ '9') &&
    (match (rest.span Char.isDigit).2 with
     | 'e' :: es => !es.isEmpty && es.all Char.isDigit
     | _ => false)
  | [] => false

/-- `/^0x[0-9a-zA-Z]+$/` of `isConstant` (note the sloppy alphanumeric
class of the source). -/
def hex0xAlnumTest (s : String) : Bool :=
  match s.data with
  | '0' :: 'x' :: rest => !rest.isEmpty && rest.all (fun c => c.isAlphanum)
  | _ => false

/-- Digits to a natural number. -/
def natOfDigits (l : List Char) : Nat :=
  l.foldl (fun a c => a * 10 + (c.toNat - 48)) 0

/-- `RainDocument.isConstant`: the canonical numeral if the text is a
single numeric token, `""` otherwise. -/
def isConstant (text : String) : String :=
  match exclusiveParseWS text 0 with
  | [it] =>
    if numericPatternTest it.1 then
      if eNotTest it.1 then
        let mant := it.1.data.takeWhile (fun c => c ≠ 'e')
        let ex := (it.1.data.dropWhile (fun c => c ≠ 'e')).drop 1
        String.mk (mant ++ List.replicate (natOfDigits ex) '0')
      else if hex0xAlnumTest it.1 then it.1
      else decimalCanon it.1
    else ""
  | _ => ""

/-- The binding object created by the extraction loop: elided when the
comment-blanked content starts with `!`, a constant when it is a single
numeral, plain otherwise (never more than one of the variants, and the
expression field unassigned). -/
def mkExtractedBinding (name : String) (namePosition : Offsets)
    (content : String) (contentPosition position : Offsets)
    (noCmContent : String) : Binding :=
  if isElided noCmContent then
    let msgT := jsTrim (String.mk ((jsTrim noCmContent).data.drop 1))
    { name := name, namePosition := namePosition, content := content,
      contentPosition := contentPosition, position := position,
      elided := some (if msgT ≠ "" then msgT else defaultElision) }
  else
    let val := isConstant noCmContent
    if val ≠ "" then
      { name := name, namePosition := namePosition, content := content,
        contentPosition := contentPosition, position := position,
        constant := some val }
    else
      { name := name, namePosition := namePosition, content := content,
        contentPosition := contentPosition, position := position }

/-- Intermediate state of the binding-extraction loop. -/
structure BindState where
  document : String
  nspace : NSMap
  bindings : List Binding
  problems : List Problem

/-- Take `[a, b)` of a string by character offsets. -/
def sliceStr (s : String) (a b : Nat) : String :=
  String.mk ((s.data.drop a).take (b - a))

/-- One iteration of the binding-extraction loop of `_parse`
(lines 1022–1138) on the raw chunk after a `#`; `original` is the
untouched document text (content is re-read from it, while the name
and the comment-blanked content come from the working document). -/
def bindingStep (original : String) (st : BindState) (v : Chunk) : BindState :=
  let idx := v.1.data.findIdx? jsIsSpace
  let position := v.2
  let parts : String × Offsets × String × Offsets × String :=
    match idx with
    | none => (v.1, v.2, "", (v.2.2 + 1, v.2.2), "")
    | some i =>
      let noCmT := trackedTrim (String.mk (v.1.data.drop (i + 1)))
      let noCm := if noCmT.text = "" then String.mk (v.1.data.drop (i + 1))
        else noCmT.text
      let contentText := sliceStr original v.2.1.toNat (v.2.2 + 1).toNat
      let trimmed := trackedTrim (String.mk (contentText.data.drop (i + 1)))
      let name := String.mk (v.1.data.take i)
      let namePos : Offsets := (v.2.1, v.2.1 + (i : Int) - 1)
      let content := if trimmed.text = ""
        then String.mk (contentText.data.drop (i + 1)) else trimmed.text
      let contentPos : Offsets :=
        if trimmed.text = "" then (v.2.1 + (i : Int) + 1, v.2.2)
        else (v.2.1 + (i : Int) + 1 + (trimmed.startDel : Int),
              v.2.2 - (trimmed.endDel : Int))
      (name, namePos, content, contentPos, noCm)
  let name := parts.1
  let namePosition := parts.2.1
  let content := parts.2.2.1
  let contentPosition := parts.2.2.2.1
  let noCmContent := parts.2.2.2.2
  let invalidId := !wordPatternTest name
  let dupId := st.nspace.hasKey name
  let ps := st.problems ++
    (if invalidId then
      [{ msg := "invalid binding name", position := namePosition,
         code := ErrorCode.InvalidBindingIdentifier }] else []) ++
    (if dupId then
      [{ msg := "duplicate identifier", position := namePosition,
         code := ErrorCode.DuplicateIdentifier }] else []) ++
    (if noCmContent.data.all jsIsSpace then
      [{ msg := "empty binding are not allowed", position := namePosition,
         code := ErrorCode.InvalidEmptyBinding }] else [])
  let st1 :=
    if !invalidId && !dupId then
      let b : Binding := mkExtractedBinding name namePosition content
        contentPosition position noCmContent
      { st with
          nspace := st.nspace.assign name
            (.leaf { Hash := "", ImportIndex := -1, Element := .binding b }),
          bindings := st.bindings ++ [b],
          problems := ps }
    else { st with problems := ps }
  { st1 with document := fillIn st1.document (v.2.1 - 1, v.2.2) }

/-- The whole binding-extraction loop (the chunk list is computed from
the working document before any blanking of this loop). -/
def bindingsStage (original : String) (st : BindState) : BindState :=
  ((exclusiveParseChar '#' st.document).drop 1).foldl (bindingStep original) st

/-- Lines 1141–1147 of `_parse`: imports positioned at or after the
first binding are not top level. -/
def topLevelImportProblems (imports : List Import) (bindings : List Binding) :
    List Problem :=
  match bindings with
  | [] => []
  | b0 :: _ =>
    imports.filterMap (fun v =>
      if v.position.1 ≥ b0.namePosition.1 then
        some { msg := "imports can only be stated at top level",
               position := v.position, code := ErrorCode.InvalidImport }
      else none)

/-- Lines 1150–1156 of `_parse`: any remaining non-whitespace text is an
unexpected token. -/
def residualProblems (document : String) : List Problem :=
  (exclusiveParseWS document 0).map (fun v => unexpectedTokenProblem v.2)

/-- Lines 1167–1203 of `_parse`: hand each non-constant, non-elided
binding's content to the external expression parser (supplied as
`rainlang`, receiving the content, working word set, namespace and the
ignore flag), store the opaque result and append its problems translated
by the content start offset. -/
def assignExpressions
    (rainlang : String → List Authoring → NSMap → Bool → List Problem)
    (am : List Authoring) (ns : NSMap) (iuam : Bool)
    (bs : List Binding) : List Binding :=
  bs.map (fun v =>
    if v.constant.isNone && v.elided.isNone then
      let probs := rainlang v.content am ns iuam
      { v with
          exp := some { problems := probs },
          problems := v.problems ++ probs.map (fun e =>
            { e with position := (e.position.1 + v.contentPosition.1,
                                  e.position.2 + v.contentPosition.1) }) }
    else v)

/-- The `while ((_index = findIndex(...)) > -1) splice` loop of the
ignore-next-line pass: repeatedly remove the first problem satisfying
the predicate. -/
def spliceAll : Nat → (Problem → Bool) → List Problem → List Problem
  | 0, _, ps => ps
  | fuel + 1, pred, ps =>
    match ps.findIdx? pred with
    | some i => spliceAll fuel pred (ps.eraseIdx i)
    | none => ps

/-- One comment's pass of the ignore-next-line filter: for a marker
comment, splice out every problem whose start offset lies on the line
below the comment's end. -/
def ignoreStep (text : String) (ps : List Problem) (c : Comment) :
    List Problem :=
  if containsWordBounded c.comment "ignore-next-line" then
    let cmLine := jsLineOf text (c.position.2 + 1)
    spliceAll ps.length (fun e => jsLineOf text e.position.1 == cmLine + 1) ps
  else ps

/-- Lines 1206–1217 of `_parse`: for every comment carrying the
`ignore-next-line` marker, remove every *document-level* problem whose
start offset lies on the line below the comment's end. -/
def applyIgnoreNextLine (text : String) (comments : List Comment)
    (problems : List Problem) : List Problem :=
  comments.foldl (ignoreStep text) problems

/-! ## Document Orchestrator (`RainDocument.parse` / `_parse`) -/

/-- The external collaborators a parse pass consults: the metadata
store/decoder (`metaOf`, keyed by import hash) and the expression parser
(`rainlang`, invoked with a binding's content, the working word set, the
namespace and the ignore-undefined-authoring-meta flag). -/
structure ParseEnv where
  metaOf : String → Option MetaRecord
  rainlang : String → List Authoring → NSMap → Bool → List Problem

/-- The document state a `RainDocument` owns (text plus derived
collections; `bytecode = none` models the `undefined` assigned when the
selected word set carries no bytecode field). -/
structure DocState where
  text : String
  importDepth : Nat := 0
  authoringMeta : List Authoring := []
  authoringMetaPath : String := ""
  bytecode : Option String := some ""
  imports : List Import := []
  problems : List Problem := []
  comments : List Comment := []
  bindings : List Binding := []
  nspace : NSMap := .nil
  ignoreAM : Bool := false
  ignoreUAM : Bool := false
  runtimeError : Option String := none

/-- The whitespace-only reset of `parse` (and the head of `_parse`):
every derived collection is cleared. -/
def resetDerived (st : DocState) : DocState :=
  { st with
      authoringMeta := [], imports := [], problems := [], comments := [],
      bindings := [], nspace := .nil, authoringMetaPath := "",
      bytecode := some "", ignoreAM := false, ignoreUAM := false,
      runtimeError := none }

/-- `getAllProblems()`: document problems followed by every binding's
problems. -/
def getAllProblems (st : DocState) : List Problem :=
  st.problems ++ st.bindings.flatMap (·.problems)

/-- Write the dependency/expression-stage updates of the binding
objects back into the namespace (in the source, namespace entries and
`this.bindings` alias the same objects, so their mutation is visible
through the namespace as well). -/
def syncBindings (ns : NSMap) (bs : List Binding) : NSMap :=
  bs.foldl (fun (m : NSMap) b =>
    match m.lookup b.name with
    | some (.leaf l) =>
      match l.Element with
      | .binding _ => m.set b.name (.leaf { l with Element := .binding b })
      | _ => m
    | _ => m) ns

/-- `RainDocument._parse`: the full pipeline over non-whitespace text —
comments, actionable-comment flags, import isolation, the
depth-gated import stage, the merge loop, binding extraction, and
residual checks, dependency resolution, the depth-0 word-set selection
and expression parsing, and finally the ignore-next-line filter.
(The top-level `try/catch` of `parse` is not modelled: the embedding is
total, so no runtime-error path arises.) This core stops just before
the final ignore-next-line filter, which `parseBody` applies. -/
def parseBodyCore (env : ParseEnv) (st0 : DocState) : DocState :=
  let st := resetDerived st0
  let text := st.text
  let cm := commentsStage text
  let comments := cm.1
  let iam := comments.any (fun v => containsWordBounded v.comment
    "ignore-authoring-meta")
  let iuam0 := comments.any (fun v => containsWordBounded v.comment
    "ignore-undefined-authoring-meta")
  let iuam := iuam0 || iam
  let is := importStatementsOf cm.2.2
  let r := importStage env.metaOf st.importDepth is.1
  let imports := r.1
  let ml := mergeLoop imports .nil
  let bs := bindingsStage text
    { document := is.2, nspace := ml.1, bindings := [], problems := [] }
  let probs1 := cm.2.1 ++ r.2 ++ ml.2 ++ bs.problems ++
    topLevelImportProblems imports bs.bindings ++
    residualProblems bs.document
  let dep := processDependencies bs.bindings
  let gw : WordsResult := if st.importDepth = 0 then getWords bs.nspace else { }
  let finalBs : List Binding :=
    if st.importDepth = 0 then
      assignExpressions env.rainlang gw.authoringMeta bs.nspace iuam dep.1
    else dep.1
  let probs2 := probs1 ++ dep.2 ++ gw.problems
  { st with
      comments := comments,
      imports := imports,
      nspace := syncBindings bs.nspace finalBs,
      bindings := finalBs,
      problems := probs2,
      authoringMeta := gw.authoringMeta,
      authoringMetaPath := gw.authoringMetaPath,
      bytecode := gw.bytecode,
      ignoreAM := iam,
      ignoreUAM := iuam }

/-- `RainDocument._parse`: the pipeline core followed by the final
ignore-next-line filter over the document-level problems (binding
problem lists are not touched by the filter). -/
def parseBody (env : ParseEnv) (st0 : DocState) : DocState :=
  let c := parseBodyCore env st0
  { c with problems := applyIgnoreNextLine c.text c.comments c.problems }

/-- `RainDocument.parse`: dispatch on `/[^\s]/.test(text)` — run the
full pipeline on non-whitespace text, reset every derived field
otherwise. -/
def parseDoc (env : ParseEnv) (st : DocState) : DocState :=
  if st.text.data.any (fun c => !jsIsSpace c) then parseBody env st
  else resetDerived st

/-! ## Claim-formalization definitions and concrete instances -/

/-- Binding `a` referencing `b` (from `#a _: 'b;`). -/
def c1a : Binding :=
  { name := "a", namePosition := (1, 1), content := "_: 'b;",
    contentPosition := (3, 8), position := (1, 8) }

/-- Binding `b` referencing `a`. -/
def c1b : Binding :=
  { name := "b", namePosition := (10, 10), content := "_: 'a;",
    contentPosition := (12, 17), position := (10, 17) }

/-- Independent binding `c`. -/
def c1c : Binding :=
  { name := "c", namePosition := (19, 19), content := "_: 1 2;",
    contentPosition := (21, 27), position := (19, 27) }

/-- The raw import statement ` a 0x00…0` (a name and a well-formed
32-byte hash) at offsets `(10, 78)`. -/
def c4stmt : Chunk :=
  (" a 0x0000000000000000000000000000000000000000000000000000000000000000",
   (10, 78))

/-- A problem-carrying import for the C10 witness. -/
def c10imp : Import :=
  { namePosition := (0, 0), hashPosition := (0, 0), position := (0, 5),
    problems := [unexpectedTokenProblem (0, 0)] }

/-- A minimal environment: the store knows no hash, the expression
parser reports nothing. -/
def emptyEnv : ParseEnv :=
  { metaOf := fun _ => none, rainlang := fun _ _ _ _ => [] }


/-- Claim-side (C3/C6): every `Words` node reachable strictly below the
given namespace, in the own-entry-first depth-first order `getWords`'s
`_validate` walks. -/
def wordsEntriesChildren : NSMap → List NSNode
  | .nil => []
  | .cons _ v rest =>
    (match v with
     | .leaf _ => []
     | .node m =>
       (match m.lookup "Words" with | some w => [w] | none => []) ++
       wordsEntriesChildren m) ++ wordsEntriesChildren rest

/-- Claim-side (C3/C6): every `Words` node reachable from the namespace
root, the root's own entry first. -/
def wordsEntries (ns : NSMap) : List NSNode :=
  (match ns.lookup "Words" with | some w => [w] | none => []) ++
  wordsEntriesChildren ns

/-- Claim-side (C3/C6): the source hashes of all reachable word
sets. -/
def wordsLeafHashes (ns : NSMap) : List String :=
  (wordsEntries ns).map NSNode.hashStr

/-- Claim-side (C6): every `Words` node reachable strictly below the
given namespace paired with its path segments, in the same
own-entry-first depth-first order as `wordsEntriesChildren`. -/
def wordsFoundChildren : NSMap → List (List String × NSNode)
  | .nil => []
  | .cons k v rest =>
    (match v with
     | .leaf _ => []
     | .node m =>
       ((match m.lookup "Words" with
         | some w => [(([] : List String), w)]
         | none => []) ++
        wordsFoundChildren m).map (fun pr => (k :: pr.1, pr.2))) ++
    wordsFoundChildren rest

/-- Claim-side (C6): every reachable `Words` node with its path
segments, the root's own entry (empty path) first. -/
def wordsFound (ns : NSMap) : List (List String × NSNode) :=
  (match ns.lookup "Words" with
   | some w => [(([] : List String), w)]
   | none => []) ++
  wordsFoundChildren ns

/-- The subtree a given import merges into (the root for `"."`, the
named child otherwise; a fresh empty node when the child is absent,
matching `mergeNamespace`'s just-created `{}`). -/
def mergeTarget (name : String) (root : NSMap) : NSNode :=
  if name = "." then .node root else (root.lookup name).getD (.node .nil)

/-- The hash of a namespace node's top-level `Words` leaf, if any. -/
def topWordsLeafHash : NSNode → Option String
  | .node m =>
    match m.lookup "Words" with
    | some (.leaf l) => some l.Hash
    | _ => none
  | .leaf _ => none

/-- An empty word-set leaf (for concrete word-collision examples). -/
def wordsLeaf (h : String) (i : Int) : NSLeaf :=
  { Hash := h, ImportIndex := i, Element := .words [] }

/-- An empty word-set leaf carrying bytecode. -/
def wordsLeafB (h : String) (i : Int) (bc : String) : NSLeaf :=
  { Hash := h, ImportIndex := i, Element := .words [], bytecode := some bc }

/-- A sequence holding only a word-set payload. -/
def dispairSeq (bc : String) (am : List Authoring) : Sequence :=
  { dispair := some { bytecode := bc, authoringMeta := am } }

/-- C3 counterexample import 1: a word set of hash `0x01` imported into
child namespace `a`. -/
def c3imp1 : Import :=
  { name := "a", hash := "0x01", namePosition := (1, 1),
    hashPosition := (3, 6), position := (1, 6),
    sequence := some (dispairSeq "0xb1" []) }

/-- C3 counterexample import 2: a word set of hash `0x02` imported into
the root. -/
def c3imp2 : Import :=
  { name := ".", hash := "0x02", namePosition := (8, 8),
    hashPosition := (9, 12), position := (8, 12),
    sequence := some (dispairSeq "0xb2" []) }

/-- The C6 counterexample word set: hash `0xaa`, one word. -/
def c6w : NSLeaf :=
  { Hash := "0xaa", ImportIndex := 0, Element := .words [{ word := "add" }],
    bytecode := some "0xb" }

/-- The C6 counterexample namespace: the *same* word set reachable as
two distinct leaves, under `x` and under `y`. -/
def c6ns : NSMap :=
  .cons "x" (.node (.cons "Words" (.leaf c6w) .nil))
    (.cons "y" (.node (.cons "Words" (.leaf { c6w with ImportIndex := 1 })
      .nil)) .nil)

/-- A C6 exposure example: exactly one word set, under child `x`. -/
def c6single : NSMap :=
  .cons "x" (.node (.cons "Words" (.leaf c6w) .nil)) .nil

/-- A C6 multiple-sets example: differing hashes at the root and under
child `x`. -/
def c6pair : NSMap :=
  .cons "Words" (.leaf (wordsLeaf "0x01" 0))
    (.cons "x" (.node (.cons "Words" (.leaf (wordsLeaf "0x02" 1)) .nil))
      .nil)

/-- A C6 depth-gate example state: a nested document at import depth
one. -/
def c6deepState : DocState := { text := "#a 1;", importDepth := 1 }

/-- The rename quote mark as a one-character string. -/
def quoteStr : String := String.mk [quoteChar]

/-- A single-word namespace entry for the C7 counterexample. -/
def c7wns : NSMap :=
  .cons "w" (.leaf { Hash := "0x01", ImportIndex := 0,
                     Element := .word { word := "w" } }) .nil

/-- A binding for the C7 witness. -/
def c7bind : Binding :=
  { name := "b", namePosition := (0, 0), content := "1 2",
    contentPosition := (2, 4), position := (0, 4) }

/-- The C7 witness binding as a namespace leaf. -/
def c7bnode : NSNode :=
  .leaf { Hash := "", ImportIndex := -1, Element := .binding c7bind }

/-- A one-binding namespace for the C7 witness. -/
def c7bns : NSMap := .cons "b" c7bnode .nil

/-- The mutually-exclusive value fields of a binding (for invariant
preservation arguments). -/
def bindingCore (b : Binding) :
    Option String × Option String × Option RainlangExp :=
  (b.constant, b.elided, b.exp)

/-- A just-extracted binding: no expression yet, and never both the
elided and the constant variant. -/
def freshBinding (b : Binding) : Prop :=
  b.exp = none ∧ ¬(b.elided.isSome ∧ b.constant.isSome)

/-- The binding after a rebind-to-constant directive: constant
overwritten, elided and expression state cleared. -/
def reboundBinding (b : Binding) (val : String) : Binding :=
  { b with constant := some val, elided := none, exp := none }

/-- The namespace leaf after a rebind-to-constant directive. -/
def reboundLeaf (l : NSLeaf) (b : Binding) (val : String) : NSNode :=
  .leaf { l with Element := .binding (reboundBinding b val) }

/-- Claim-side predicate for C2: is this problem's source line exactly
one line below a comment carrying the `ignore-next-line` marker? -/
def onIgnoredLine (text : String) (comments : List Comment)
    (p : Problem) : Bool :=
  comments.any (fun c =>
    containsWordBounded c.comment "ignore-next-line" &&
    jsLineOf text p.position.1 == jsLineOf text (c.position.2 + 1) + 1)

/-- An environment whose expression parser reports one problem at the
start of every parsed content (for the C2 counterexample). -/
def cexEnv : ParseEnv :=
  { metaOf := fun _ => none,
    rainlang := fun _ _ _ _ =>
      [{ msg := "bad expression", position := (0, 0),
         code := .UnexpectedToken }] }

/-- The C2 counterexample document: an `ignore-next-line` comment whose
following line holds both residual junk (a document-level problem) and
a binding whose expression parse reports a problem. -/
def c2text : String := "/* ignore-next-line */\n?? #a x y"

/-! ## Claim theorems -/

/-! ### C1 — dependency-cycle pruning -/

/-- C1: evaluating the dependency resolver at the claim's own example
(bindings `a -> b -> a` plus independent `c`) shows the code attaches
*no* circular-dependency problem to any binding and reports no
document problem: the repair loop's guard
`while (!_nodes.length || !_edges.length)` only runs the
toposort/pruning body when the node or edge list is empty, so for this
input the body never executes. The claim (and the spec) require exactly
`{a, b}` to receive circular-dependency problems. -/
theorem claim_C1_cycle_pruning_dead :
    (processDependencies [c1a, c1b, c1c]).1.map
        (fun b => (b.name, b.dependencies, b.problems)) =
      [("a", ["b"], []), ("b", ["a"], []), ("c", [], [])] ∧
    (processDependencies [c1a, c1b, c1c]).2 = [] := by
  constructor <;> decide

/-! ### C2 — ignore-next-line filtering -/

/-- Removing the element `findIdx?` locates preserves the non-matching
sublist and drops exactly one match. -/
theorem splice_erase_filter {α : Type} (pred : α → Bool) :
    ∀ (ps : List α) (i : Nat), ps.findIdx? pred = some i →
      (ps.eraseIdx i).filter (fun p => !pred p) =
        ps.filter (fun p => !pred p) ∧
      ((ps.eraseIdx i).filter pred).length + 1 = (ps.filter pred).length := by
  intro ps
  induction ps with
  | nil => intro i h; simp [List.findIdx?] at h
  | cons a t ih =>
    intro i h
    rw [List.findIdx?_cons] at h
    by_cases hp : pred a = true
    · rw [if_pos hp] at h
      injection h with h0
      subst h0
      simp [List.eraseIdx_cons_zero, List.filter_cons, hp]
    · rw [if_neg hp] at h
      rw [List.findIdx?_succ] at h
      rcases Option.map_eq_some'.mp h with ⟨j, hj, hji⟩
      subst hji
      have hih := ih j hj
      have hpb : pred a = false := by simpa using hp
      constructor
      · simp [List.eraseIdx_cons_succ, List.filter_cons, hpb, hih.1]
      · simpa [List.eraseIdx_cons_succ, List.filter_cons, hpb] using hih.2

/-- The splice loop with enough fuel removes exactly the matching
problems: it equals a filter. -/
theorem spliceAll_eq_filter (pred : Problem → Bool) :
    ∀ (fuel : Nat) (ps : List Problem), (ps.filter pred).length ≤ fuel →
      spliceAll fuel pred ps = ps.filter (fun p => !pred p) := by
  intro fuel
  induction fuel with
  | zero =>
    intro ps h
    have h0 : ps.filter pred = [] := List.length_eq_zero.mp (Nat.le_zero.mp h)
    have hall : ∀ p ∈ ps, pred p = false := by
      intro p hp
      by_contra hc
      have hmem : p ∈ ps.filter pred :=
        List.mem_filter.mpr ⟨hp, by simpa using hc⟩
      simp [h0] at hmem
    rw [show spliceAll 0 pred ps = ps from rfl]
    symm
    rw [List.filter_eq_self]
    intro p hp; simp [hall p hp]
  | succ n ih =>
    intro ps h
    cases hf : ps.findIdx? pred with
    | none =>
      have hall := List.findIdx?_eq_none_iff.mp hf
      rw [show spliceAll (n + 1) pred ps = ps from by simp [spliceAll, hf]]
      symm
      rw [List.filter_eq_self]
      intro p hp; simp [hall p hp]
    | some i =>
      have hl := splice_erase_filter pred ps i hf
      have hle : ((ps.eraseIdx i).filter pred).length ≤ n := by omega
      rw [show spliceAll (n + 1) pred ps = spliceAll n pred (ps.eraseIdx i)
        from by simp [spliceAll, hf]]
      rw [ih _ hle, hl.1]

/-- C2 (amended): the final filter drops exactly the *document-level*
problems one line below an `ignore-next-line` comment — it is the
filter by `onIgnoredLine` — so after a full parse pass no surviving
document-level problem lies on an ignored line, while binding-level
problem lists pass through the filter stage untouched. -/
theorem claim_C2_ignore_next_line_doc_only :
    (∀ (text : String) (comments : List Comment) (problems : List Problem),
      applyIgnoreNextLine text comments problems =
        problems.filter (fun p => !onIgnoredLine text comments p)) ∧
    (∀ (env : ParseEnv) (st : DocState),
      ((parseDoc env st).problems).all
        (fun p => !onIgnoredLine (parseDoc env st).text
          (parseDoc env st).comments p) = true) ∧
    (∀ (env : ParseEnv) (st : DocState),
      (parseBody env st).bindings = (parseBodyCore env st).bindings) := by
  have hfilter : ∀ (text : String) (comments : List Comment)
      (problems : List Problem),
      applyIgnoreNextLine text comments problems =
        problems.filter (fun p => !onIgnoredLine text comments p) := by
    intro text comments
    induction comments with
    | nil =>
      intro ps
      simp [applyIgnoreNextLine, onIgnoredLine]
    | cons c t ih =>
      intro ps
      have hfold : applyIgnoreNextLine text (c :: t) ps =
          applyIgnoreNextLine text t (ignoreStep text ps c) := rfl
      rw [hfold, ih]
      by_cases hm : containsWordBounded c.comment "ignore-next-line"
      · rw [ignoreStep, if_pos hm]
        rw [spliceAll_eq_filter _ _ _ (List.length_filter_le _ _)]
        rw [List.filter_filter]
        apply List.filter_congr
        intro p _
        simp [onIgnoredLine, hm, List.any_cons]
        exact Bool.and_comm _ _
      · rw [ignoreStep, if_neg hm]
        apply List.filter_congr
        intro p _
        simp [onIgnoredLine, hm, List.any_cons]
  refine ⟨hfilter, ?_, fun env st => rfl⟩
  intro env st
  by_cases hws : (st.text.data.any (fun c => !jsIsSpace c)) = true
  · rw [List.all_eq_true]
    intro p hp
    rw [show parseDoc env st = parseBody env st from by simp [parseDoc, hws]]
      at hp ⊢
    have hpb : (parseBody env st).problems =
        applyIgnoreNextLine (parseBodyCore env st).text
          (parseBodyCore env st).comments
          (parseBodyCore env st).problems := rfl
    rw [hpb, hfilter] at hp
    rw [List.mem_filter] at hp
    exact hp.2
  · rw [show parseDoc env st = resetDerived st from by simp [parseDoc, hws]]
    rfl

/-- C2 counterexample: on `c2text` (an `ignore-next-line` comment, then
a line with residual junk and a binding whose expression parse reports
a problem) the full pass keeps the binding-level problem that lies on
the ignored line — the claim requires it dropped — while the
document-level problem on that line is dropped. -/
theorem claim_C2_counterexample :
    ((getAllProblems (parseDoc cexEnv { text := c2text })).filter
        (onIgnoredLine c2text (parseDoc cexEnv { text := c2text }).comments)) =
      [{ msg := "bad expression", position := (29, 29),
         code := .UnexpectedToken }] ∧
    (parseDoc cexEnv { text := c2text }).problems =
      [cannotFindWordsProblem] := by
  constructor <;> rfl

/-! ### C4 — import depth bound -/

/-- C4 (amended): at import depth 32 or deeper the import stage
processes nothing — for any store model the result is independent of it:
no import is constructed (hence no nested recursion), and each raw
statement yields exactly one "import too deep" problem at the *import
statement's* position `[start - 1, end]`. -/
theorem claim_C4_deep_import_gate (metaOf : String → Option MetaRecord)
    (depth : Nat) (stmts : List Chunk) (h : 32 ≤ depth) :
    importStage metaOf depth stmts = ([], stmts.map deepImportProblem) := by
  have h' : ¬ depth < 32 := by omega
  simp [importStage, h']

/-- Witness for `claim_C4_deep_import_gate` at a concrete statement. -/
theorem claim_C4_deep_import_gate_witness :
    importStage (fun _ => none) 32 [(" a 0xab", (1, 7))] =
      ([], [{ msg := "import too deep", position := (0, 7),
              code := .DeepImport }]) :=
  claim_C4_deep_import_gate (fun _ => none) 32 [(" a 0xab", (1, 7))]
    (by decide)

/-- C4 counterexample: the claim places the depth-gate diagnostic "at
the import's hash position", but the gate fires before any hash is
parsed and reports at the statement's position `[start - 1, end]`:
for `c4stmt` the import's hash token sits at `(13, 78)` (as the
resolver itself computes) while the gate's problem is at `(9, 78)`. -/
theorem claim_C4_counterexample :
    importStage (fun _ => none) 32 [c4stmt] =
      ([], [{ msg := "import too deep", position := (9, 78),
              code := .DeepImport }]) ∧
    (processImportModel (fun _ => none) c4stmt).1.hashPosition = (13, 78) ∧
    ((9 : Int), (78 : Int)) ≠ (((13 : Int), (78 : Int)) : Offsets) := by
  refine ⟨rfl, by decide, by decide⟩

/-! ### C3 — colliding word sets -/

/-- A namespace with a key is not empty. -/
theorem nsNotEmpty_of_lookup (m : NSMap) (k : String) (v : NSNode)
    (h : m.lookup k = some v) : m.isEmpty = false := by
  cases m with
  | nil => simp [NSMap.lookup] at h
  | cons a w rest => rfl

/-- Unpack a top-level `Words` leaf hash. -/
theorem topWordsLeafHash_node (m : NSMap) (h : String)
    (hh : topWordsLeafHash (.node m) = some h) :
    ∃ l : NSLeaf, m.lookup "Words" = some (.leaf l) ∧ l.Hash = h := by
  cases hw : m.lookup "Words" with
  | none => simp [topWordsLeafHash, hw] at hh
  | some w =>
    cases w with
    | leaf l =>
      simp [topWordsLeafHash, hw] at hh
      exact ⟨l, rfl, hh⟩
    | node m2 => simp [topWordsLeafHash, hw] at hh

/-- When the existing subtree and the incoming namespace both hold a
top-level `Words` leaf with different hashes, `_check` answers with the
word-set collision message immediately. -/
theorem checkNS_words_collision (ns cm : NSMap) (lw lc : NSLeaf)
    (hlw : ns.lookup "Words" = some (.leaf lw))
    (hlc : cm.lookup "Words" = some (.leaf lc))
    (hne : lw.Hash ≠ lc.Hash) :
    checkNS ns (.node cm) = wordsMsg := by
  have hnem := nsNotEmpty_of_lookup cm "Words" _ hlc
  simp only [checkNS, hnem, hlc, hlw, Bool.false_eq_true, if_false]
  rw [if_pos]
  simp [NSNode.hashOf, hne]

/-- C3 (amended): a word-set collision is detected per *path*, not by
global reachability — when the incoming namespace and the existing
subtree at the import's target name both carry a top-level `Words` leaf
and the hashes differ, merging records exactly one "namespace already
contains a set of words" problem at the import's hash position and
leaves the namespace exactly as it was (the import contributes
nothing). -/
theorem claim_C3_words_collision (name : String) (hashPos : Offsets)
    (ns root : NSMap) (h1 h2 : String)
    (ht : topWordsLeafHash (mergeTarget name root) = some h1)
    (hn : topWordsLeafHash (.node ns) = some h2)
    (hne : h2 ≠ h1) :
    mergeNamespaceOp name hashPos ns root =
      (root, [{ msg := wordsMsg, position := hashPos,
                code := .MultipleWords }]) := by
  rcases topWordsLeafHash_node ns h2 hn with ⟨lw, hlw, hlwh⟩
  by_cases hname : name = "."
  · subst hname
    have htn : topWordsLeafHash (.node root) = some h1 := by
      rw [show mergeTarget "." root = .node root from by
        simp [mergeTarget]] at ht
      exact ht
    rcases topWordsLeafHash_node root h1 htn with ⟨lc, hlc, hlch⟩
    have hcheck := checkNS_words_collision ns root lw lc hlw hlc
      (by rw [hlwh, hlch]; exact hne)
    simp +decide [mergeNamespaceOp, hcheck, wordsMsg]
  · have htg : topWordsLeafHash ((root.lookup name).getD (.node .nil)) =
        some h1 := by
      rw [show mergeTarget name root =
        (root.lookup name).getD (.node .nil) from by
        simp [mergeTarget, hname]] at ht
      exact ht
    have htm : ∃ (m : NSMap) (lc : NSLeaf),
        root.lookup name = some (.node m) ∧
        m.lookup "Words" = some (.leaf lc) ∧ lc.Hash = h1 := by
      cases hr : root.lookup name with
      | none =>
        rw [hr] at htg
        simp [topWordsLeafHash, NSMap.lookup] at htg
      | some v =>
        rw [hr] at htg
        simp only [Option.getD_some] at htg
        cases v with
        | leaf l => simp [topWordsLeafHash] at htg
        | node m =>
          rcases topWordsLeafHash_node m h1 htg with ⟨lc, hlc, hlch⟩
          exact ⟨m, lc, rfl, hlc, hlch⟩
    rcases htm with ⟨m, lc, hr, hlc, hlch⟩
    have hkey : root.hasKey name = true := by simp [NSMap.hasKey, hr]
    have hmne : m.isEmpty = false := nsNotEmpty_of_lookup m "Words" _ hlc
    have hcheck := checkNS_words_collision ns m lw lc hlw hlc
      (by rw [hlwh, hlch]; exact hne)
    simp +decide [mergeNamespaceOp, hname, hkey, hr, hcheck, hmne, wordsMsg]

/-- Witness for `claim_C3_words_collision`: importing a `Words` leaf of
hash `0x02` into a root already holding a `Words` leaf of hash
`0x01`. -/
theorem claim_C3_words_collision_witness :
    mergeNamespaceOp "." (4, 9)
        (.cons "Words" (.leaf (wordsLeaf "0x02" 1)) .nil)
        (.cons "Words" (.leaf (wordsLeaf "0x01" 0)) .nil) =
      (.cons "Words" (.leaf (wordsLeaf "0x01" 0)) .nil,
       [{ msg := wordsMsg, position := (4, 9),
          code := .MultipleWords }]) :=
  claim_C3_words_collision "." (4, 9) _ _ "0x01" "0x02" rfl rfl (by decide)

/-- C3 counterexample: merging two distinct-hash word sets under
*different* paths (one under child `a`, one at the root) is accepted —
no problem at all is recorded, the final namespace reaches two word-set
leaves with different hashes, and the second import's contribution is
present — contradicting the claim's reachability-based reading. -/
theorem claim_C3_counterexample :
    (mergeLoop [c3imp1, c3imp2] .nil).2 = [] ∧
    wordsLeafHashes (mergeLoop [c3imp1, c3imp2] .nil).1 = ["0x02", "0x01"] ∧
    (mergeLoop [c3imp1, c3imp2] .nil).1.lookup "Words" =
      some (.leaf (wordsLeafB "0x02" 1 "0xb2")) := by
  refine ⟨rfl, rfl, rfl⟩

/-! ### C5 — corrupt-meta classification reset -/

/-- C5: if any metadata-classification branch rejects, the import's
sequence is the empty one (every payload kind dropped together) and
exactly one "corrupt meta" problem is appended at the import's hash
position (after the problems the successful branches had already
pushed). -/
theorem claim_C5_corrupt_meta_reset (hashPos : Offsets)
    (outcomes : List MetaOutcome)
    (h : ∃ o ∈ outcomes, o.delta = none) :
    applyMetaResults hashPos outcomes =
      (Sequence.empty,
       outcomes.flatMap (·.impProblems) ++ [corruptMetaProblem hashPos],
       outcomes.flatMap (·.docProblems)) := by
  have ha : outcomes.any (fun o => o.delta.isNone) = true := by
    rcases h with ⟨o, ho, hd⟩
    exact List.any_eq_true.mpr ⟨o, ho, by simp [hd]⟩
  simp [applyMetaResults, ha]

/-- Witness for `claim_C5_corrupt_meta_reset`: one rejecting branch
next to one successful context-alias branch. -/
theorem claim_C5_corrupt_meta_reset_witness :
    applyMetaResults (3, 7)
        [{ delta := some (.ctxmeta []) }, { delta := none }] =
      (Sequence.empty, [corruptMetaProblem (3, 7)], []) :=
  claim_C5_corrupt_meta_reset (3, 7)
    [{ delta := some (.ctxmeta []) }, { delta := none }]
    ⟨{ delta := none }, by simp, rfl⟩

/-! ### C8 — whitespace-only reset -/

/-- C8: parsing whitespace-only (or empty) text resets every derived
field — empty bindings, imports, namespace, comments and problems, an
empty working word set and path, and no runtime error — for any
environment. -/
theorem claim_C8_whitespace_reset (env : ParseEnv) (st : DocState)
    (h : ∀ c ∈ st.text.data, jsIsSpace c = true) :
    parseDoc env st = resetDerived st ∧
    (parseDoc env st).bindings = [] ∧
    (parseDoc env st).imports = [] ∧
    (parseDoc env st).nspace = .nil ∧
    (parseDoc env st).comments = [] ∧
    (parseDoc env st).problems = [] ∧
    (parseDoc env st).authoringMeta = [] ∧
    (parseDoc env st).authoringMetaPath = "" ∧
    (parseDoc env st).bytecode = some "" ∧
    (parseDoc env st).runtimeError = none := by
  have hcond : (st.text.data.any (fun c => !jsIsSpace c)) = false := by
    rw [List.any_eq_false]
    intro c hc
    simp [h c hc]
  have hd : parseDoc env st = resetDerived st := by
    simp [parseDoc, hcond]
  exact ⟨hd, by rw [hd]; rfl, by rw [hd]; rfl, by rw [hd]; rfl,
         by rw [hd]; rfl, by rw [hd]; rfl, by rw [hd]; rfl,
         by rw [hd]; rfl, by rw [hd]; rfl, by rw [hd]; rfl⟩

/-- Witness for `claim_C8_whitespace_reset` on a concrete whitespace
document. -/
theorem claim_C8_whitespace_reset_witness :
    parseDoc emptyEnv { text := " \n\t " } = resetDerived { text := " \n\t " } := by
  exact (claim_C8_whitespace_reset emptyEnv { text := " \n\t " } (by decide)).1

/-! ### C10 — problem-carrying imports contribute nothing -/

/-- C10: the namespace-merge loop attempts a merge only for imports
whose own problem list is empty; an import carrying any problem of its
own is skipped — it contributes nothing to the namespace and pushes
nothing — and a run of the loop over only problem-carrying imports
leaves the namespace untouched. -/
theorem claim_C10_problem_imports_skipped :
    (∀ (i : Int) (imp : Import) (root : NSMap), imp.problems ≠ [] →
      mergeStep i imp root = (root, [])) ∧
    (∀ (imports : List Import) (i : Int) (root : NSMap),
      (∀ imp ∈ imports, imp.problems ≠ []) →
      mergeLoopAux i imports root = (root, [])) := by
  have hstep : ∀ (i : Int) (imp : Import) (root : NSMap), imp.problems ≠ [] →
      mergeStep i imp root = (root, []) := by
    intro i imp root h
    have he : imp.problems.isEmpty = false := by
      cases hp : imp.problems with
      | nil => exact absurd hp h
      | cons x xs => rfl
    simp [mergeStep, he]
  refine ⟨hstep, ?_⟩
  intro imports
  induction imports with
  | nil => intro i root _; rfl
  | cons a t ih =>
    intro i root h
    have h1 := hstep i a root (h a (by simp))
    simp [mergeLoopAux, h1, ih (i + 1) root (fun imp hm => h imp (by simp [hm]))]

/-- Witness for `claim_C10_problem_imports_skipped` at a concrete
problem-carrying import. -/
theorem claim_C10_problem_imports_skipped_witness :
    mergeStep 0 c10imp .nil = (.nil, []) ∧
    mergeLoopAux 0 [c10imp] .nil = (.nil, []) :=
  ⟨claim_C10_problem_imports_skipped.1 0 c10imp .nil (by decide),
   claim_C10_problem_imports_skipped.2 [c10imp] 0 .nil
     (by intro imp h; simp at h; subst h; decide)⟩

/-! ### C7 — rename directives -/

/-- Induction over the map spine only (the mutual recursor specialised
with a trivial node motive). -/
theorem nsmapInd {motive : NSMap → Prop}
    (hnil : motive .nil)
    (hcons : ∀ k v rest, motive rest → motive (.cons k v rest)) :
    ∀ m, motive m :=
  fun m =>
    @NSMap.rec (fun _ => True) motive
      (fun _ => trivial) (fun _ _ => trivial)
      hnil (fun k v rest _ ih => hcons k v rest ih) m

/-- `lookup` after a JS `delete`. -/
theorem nsLookup_erase (m : NSMap) (k k' : String) :
    (m.erase k).lookup k' = if k' = k then none else m.lookup k' := by
  induction m using nsmapInd with
  | hnil => simp [NSMap.erase, NSMap.lookup]
  | hcons a v rest ih =>
    by_cases hak : a = k <;> by_cases hk' : k' = k <;>
      simp [NSMap.erase, NSMap.lookup, hak, hk', ih] <;>
      simp_all [eq_comm]

/-- `lookup` after `set` at the written key. -/
theorem nsLookup_set_self (m : NSMap) (k : String) (v : NSNode)
    (h : m.hasKey k = true) : (m.set k v).lookup k = some v := by
  induction m using nsmapInd with
  | hnil => simp [NSMap.hasKey, NSMap.lookup] at h
  | hcons a w rest ih =>
    by_cases hak : a = k
    · simp [NSMap.set, NSMap.lookup, hak]
    · simp only [NSMap.hasKey, NSMap.lookup] at h
      rw [if_neg (by simpa using hak)] at h
      simp [NSMap.set, NSMap.lookup, hak, ih h]

/-- `lookup` after an appended singleton. -/
theorem nsLookup_append_single (m : NSMap) (k : String) (v : NSNode) :
    (m.append (.cons k v .nil)).lookup k =
      ((m.lookup k).getD v |> some) := by
  induction m using nsmapInd with
  | hnil => simp [NSMap.append, NSMap.lookup]
  | hcons a w rest ih =>
    by_cases hak : a = k <;> simp [NSMap.append, NSMap.lookup, hak, ih]

/-- `lookup` after a JS assignment at the written key. -/
theorem nsLookup_assign_self (m : NSMap) (k : String) (v : NSNode) :
    (m.assign k v).lookup k = some v := by
  rw [NSMap.assign]
  by_cases h : m.hasKey k = true
  · rw [if_pos h]; exact nsLookup_set_self m k v h
  · rw [if_neg h]
    rw [nsLookup_append_single]
    have : m.lookup k = none := by
      cases hl : m.lookup k with
      | none => rfl
      | some w => exact absurd (by simp [NSMap.hasKey, hl]) h
    simp [this]

/-- A binding leaf is not a single-word leaf. -/
theorem isBinding_not_isWord (v : NSNode) (h : v.isBinding = true) :
    v.isWord = false := by
  cases v with
  | node m => rfl
  | leaf l =>
    obtain ⟨H, I, E, B⟩ := l
    cases E <;> simp [NSNode.isBinding, NSNode.isWord] at h ⊢

/-- C7 (amended): a rename directive `'oldname newname` whose target
resolves to a *binding* behaves as claimed — with `newname` unoccupied
the element moves (`newname` resolves to it, `oldname` to nothing, no
problem), and with `newname` occupied a duplicate-identifier problem is
reported at the new name's position and the namespace is left
unchanged. -/
theorem claim_C7_rename (ns : NSMap) (old new : String) (pos0 pos1 : Offsets)
    (v : NSNode)
    (hold : ns.lookup old = some v) (hb : v.isBinding = true)
    (hnew : wordPatternTest new = true) :
    (ns.lookup new = none →
      applyReconfigs [((quoteStr ++ old, pos0), some (new, pos1))] ns =
        ((ns.assign new v).erase old, []) ∧
      ((ns.assign new v).erase old).lookup new = some v ∧
      ((ns.assign new v).erase old).lookup old = none) ∧
    (∀ w, ns.lookup new = some w →
      applyReconfigs [((quoteStr ++ old, pos0), some (new, pos1))] ns =
        (ns, [{ msg := "cannot rename, name \"" ++ new ++ "\" already exists",
                position := pos1, code := .DuplicateIdentifier }])) := by
  have hnotbang : new ≠ "!" := by
    intro h; subst h; simp [wordPatternTest, isLowerAZ] at hnew
  have hq : startsWithQuote (quoteStr ++ old) = true := by
    simp [startsWithQuote, quoteStr]
  have hdrop : strDropOne (quoteStr ++ old) = old := by
    have : (quoteStr ++ old).data = quoteChar :: old.data := by
      simp [quoteStr]
    rw [strDropOne, this]
    cases old; rfl
  have hword : v.isWord = false := isBinding_not_isWord v hb
  constructor
  · intro hnone
    have hne : new ≠ old := by
      intro h; rw [h, hold] at hnone; cases hnone
    have happ : applyReconfigs [((quoteStr ++ old, pos0), some (new, pos1))] ns =
        ((ns.assign new v).erase old, []) := by
      have h1 : applyReconfig ns (quoteStr ++ old, pos0) (new, pos1) =
          ((ns.assign new v).erase old, []) := by
        simp [applyReconfig, hq, hdrop, hold, hword, hnone, hnotbang]
      simp [applyReconfigs, h1]
    refine ⟨happ, ?_, ?_⟩
    · rw [nsLookup_erase, if_neg hne, nsLookup_assign_self]
    · rw [nsLookup_erase, if_pos rfl]
  · intro w hsome
    have h1 : applyReconfig ns (quoteStr ++ old, pos0) (new, pos1) =
        (ns, [{ msg := "cannot rename, name \"" ++ new ++ "\" already exists",
                position := pos1, code := .DuplicateIdentifier }]) := by
      simp [applyReconfig, hq, hdrop, hold, hword, hsome, hnotbang]
    simp [applyReconfigs, h1]

/-- Witness for `claim_C7_rename`: renaming the binding `b` to the free
name `nb`. -/
theorem claim_C7_rename_witness :
    applyReconfigs [((quoteStr ++ "b", (0, 1)), some ("nb", (3, 4)))] c7bns =
      ((c7bns.assign "nb" c7bnode).erase "b", []) ∧
    ((c7bns.assign "nb" c7bnode).erase "b").lookup "nb" = some c7bnode ∧
    ((c7bns.assign "nb" c7bnode).erase "b").lookup "b" = none :=
  (claim_C7_rename c7bns "b" "nb" (0, 1) (3, 4) c7bnode rfl rfl (by decide)).1
    rfl

/-- C7 counterexample: the claim quantifies over *every* rename
directive, but a rename whose target is a single word entry reports a
single-word-modify problem and moves nothing, even though the new name
is unoccupied — `nw` does not resolve to the old element afterwards. -/
theorem claim_C7_counterexample :
    applyReconfigs [((quoteStr ++ "w", (5, 6)), some ("nw", (8, 9)))] c7wns =
      (c7wns,
       [{ msg := "cannot rename or rebind single word: \"" ++
            (quoteStr ++ "w") ++ "\"",
          position := (5, 9), code := .SingleWordModify }]) ∧
    c7wns.lookup "nw" = none := by
  constructor <;> rfl

/-! ### C9 — binding variant exclusivity -/

/-- Extraction always yields a fresh binding (exactly one of the
elided/constant variants, or neither; never an expression). -/
theorem mkExtractedBinding_fresh (name : String) (np : Offsets)
    (content : String) (cp pos : Offsets) (noCm : String) :
    freshBinding (mkExtractedBinding name np content cp pos noCm) := by
  by_cases h1 : isElided noCm = true
  · simp [mkExtractedBinding, freshBinding, h1]
  · by_cases h2 : isConstant noCm = ""
    · simp [mkExtractedBinding, freshBinding, h1, h2]
    · simp [mkExtractedBinding, freshBinding, h1, h2]

/-- One extraction step only appends fresh bindings. -/
theorem bindingStep_mem (orig : String) (st : BindState) (v : Chunk)
    (b : Binding) (h : b ∈ (bindingStep orig st v).bindings) :
    b ∈ st.bindings ∨ freshBinding b := by
  simp only [bindingStep] at h
  split at h
  · simp only at h
    rcases List.mem_append.mp h with h1 | h2
    · exact .inl h1
    · rw [List.mem_singleton.mp h2]
      exact .inr (mkExtractedBinding_fresh _ _ _ _ _ _)
  · exact .inl h

/-- The extraction loop only appends fresh bindings. -/
theorem bindingsStage_fold_mem (orig : String) :
    ∀ (l : List Chunk) (st : BindState) (b : Binding),
      b ∈ (l.foldl (bindingStep orig) st).bindings →
      b ∈ st.bindings ∨ freshBinding b := by
  intro l
  induction l with
  | nil => intro st b h; exact .inl h
  | cons c t ih =>
    intro st b h
    rcases ih _ b h with h1 | h2
    · exact bindingStep_mem orig st c b h1
    · exact .inr h2

/-- Attaching a circular-dependency problem changes no value field. -/
theorem attachCircular_core (bs : List Binding) (d : String) :
    (attachCircular bs d).map bindingCore = bs.map bindingCore := by
  induction bs with
  | nil => rfl
  | cons a t ih =>
    rw [attachCircular]
    split
    · simp [bindingCore]
    · simp [bindingCore, ih]

/-- Folded over the whole deletion set. -/
theorem foldl_attachCircular_core (del : List String) :
    ∀ bs : List Binding,
      (del.foldl attachCircular bs).map bindingCore = bs.map bindingCore := by
  induction del with
  | nil => intro bs; rfl
  | cons d t ih => intro bs; rw [List.foldl_cons, ih, attachCircular_core]

/-- The sort/repair loop changes no value field of any binding. -/
theorem depLoop_core : ∀ (fuel : Nat) (nodes : List String)
    (edges : List (String × String)) (bs : List Binding) (ps : List Problem),
    (depLoop fuel nodes edges bs ps).1.map bindingCore = bs.map bindingCore := by
  intro fuel
  induction fuel with
  | zero => intros; rfl
  | succ n ih =>
    intro nodes edges bs ps
    rw [depLoop]
    split
    · rfl
    · split
      · rfl
      · rfl
      · split
        · exact ih _ _ _ _
        · rw [ih]
          exact foldl_attachCircular_core _ _

/-- Dependency resolution changes no value field of any binding. -/
theorem processDependencies_core (bs : List Binding) :
    (processDependencies bs).1.map bindingCore = bs.map bindingCore := by
  unfold processDependencies
  rw [depLoop_core, List.map_map]
  apply List.map_congr_left
  intro b _
  simp only [Function.comp]
  split <;> rfl

/-- Expression assignment preserves the constant/elided fields and only
sets the expression of an eligible (neither-variant) binding. -/
theorem assignExpressions_mem
    (rl : String → List Authoring → NSMap → Bool → List Problem)
    (am : List Authoring) (ns : NSMap) (iu : Bool) (bs : List Binding)
    (b' : Binding) (h : b' ∈ assignExpressions rl am ns iu bs) :
    ∃ b ∈ bs, b'.constant = b.constant ∧ b'.elided = b.elided ∧
      (b'.exp = b.exp ∨ (b.constant = none ∧ b.elided = none)) := by
  unfold assignExpressions at h
  rcases List.mem_map.mp h with ⟨b, hb, heq⟩
  subst heq
  by_cases hc : (b.constant.isNone && b.elided.isNone) = true
  · rw [if_pos hc]
    refine ⟨b, hb, rfl, rfl, .inr ?_⟩
    simp only [Bool.and_eq_true, Option.isNone_iff_eq_none] at hc
    exact hc
  · rw [if_neg hc]
    exact ⟨b, hb, rfl, rfl, .inl rfl⟩

/-- The binding list a parse pass produces, abstracted over its inputs:
fresh extracted bindings run through dependency resolution and (at
depth zero) expression assignment always satisfy the claimed
exclusivity invariant. -/
theorem final_bindings_inv
    (rl : String → List Authoring → NSMap → Bool → List Problem)
    (am : List Authoring) (ns : NSMap) (iu : Bool) (depth : Nat)
    (ex : List Binding) (hex : ∀ b0 ∈ ex, freshBinding b0) (b : Binding)
    (hb : b ∈ (if depth = 0 then
        assignExpressions rl am ns iu (processDependencies ex).1
      else (processDependencies ex).1)) :
    ¬(b.elided.isSome ∧ b.constant.isSome) ∧
    (b.exp.isSome → depth = 0 ∧ b.constant = none ∧ b.elided = none) := by
  have hdep : ∀ b1 ∈ (processDependencies ex).1,
      ∃ b0 ∈ ex, bindingCore b1 = bindingCore b0 := by
    intro b1 h1
    have hmem : bindingCore b1 ∈ (processDependencies ex).1.map bindingCore :=
      List.mem_map_of_mem _ h1
    rw [processDependencies_core] at hmem
    rcases List.mem_map.mp hmem with ⟨b0, hb0, he⟩
    exact ⟨b0, hb0, he.symm⟩
  by_cases hd : depth = 0
  · rw [if_pos hd] at hb
    rcases assignExpressions_mem rl am ns iu _ b hb with ⟨b1, hb1, hc, hel, hdisj⟩
    rcases hdep b1 hb1 with ⟨b0, hb0, hcore⟩
    have hf := hex b0 hb0
    have hcc : b1.constant = b0.constant ∧ b1.elided = b0.elided ∧
        b1.exp = b0.exp := by
      simpa [bindingCore, Prod.ext_iff] using hcore
    constructor
    · intro hboth
      exact hf.2 ⟨by rw [← hcc.2.1, ← hel]; exact hboth.1,
                  by rw [← hcc.1, ← hc]; exact hboth.2⟩
    · intro hexp
      refine ⟨hd, ?_, ?_⟩
      · rcases hdisj with he | hcn
        · exfalso
          have hnone : b.exp = none := by rw [he, hcc.2.2, hf.1]
          rw [hnone] at hexp
          simp at hexp
        · rw [hc, hcn.1]
      · rcases hdisj with he | hcn
        · exfalso
          have hnone : b.exp = none := by rw [he, hcc.2.2, hf.1]
          rw [hnone] at hexp
          simp at hexp
        · rw [hel, hcn.2]
  · rw [if_neg hd] at hb
    rcases hdep b hb with ⟨b0, hb0, hcore⟩
    have hf := hex b0 hb0
    have hcc : b.constant = b0.constant ∧ b.elided = b0.elided ∧
        b.exp = b0.exp := by
      simpa [bindingCore, Prod.ext_iff] using hcore
    constructor
    · intro hboth
      exact hf.2 ⟨by rw [← hcc.2.1]; exact hboth.1,
                  by rw [← hcc.1]; exact hboth.2⟩
    · intro hexp
      exfalso
      have hnone : b.exp = none := by rw [hcc.2.2, hf.1]
      rw [hnone] at hexp
      simp at hexp

/-- C9: (i) in every parsed document a binding never has both its
elided and its constant field set, and its expression field is
populated only when the document sits at import depth 0 and neither
other variant is set; (ii) rebinding a namespace binding to a constant
overwrites its constant while clearing any previously assigned
elided/expression state. -/
theorem claim_C9_binding_exclusivity :
    (∀ (env : ParseEnv) (st : DocState) (b : Binding),
      b ∈ (parseDoc env st).bindings →
      ¬(b.elided.isSome ∧ b.constant.isSome) ∧
      (b.exp.isSome → st.importDepth = 0 ∧ b.constant = none ∧
        b.elided = none)) ∧
    (∀ (ns : NSMap) (key val : String) (pos0 pos1 : Offsets) (l : NSLeaf)
      (b : Binding),
      startsWithQuote key = false → val ≠ "!" →
      ns.lookup key = some (.leaf l) → l.Element = .binding b →
      applyReconfig ns (key, pos0) (val, pos1) =
        (ns.set key (reboundLeaf l b val), []) ∧
      (reboundBinding b val).constant = some val ∧
      (reboundBinding b val).elided = none ∧
      (reboundBinding b val).exp = none) := by
  constructor
  · intro env st b hb
    by_cases hws : (st.text.data.any fun c => !jsIsSpace c) = true
    · rw [show parseDoc env st = parseBody env st from by simp [parseDoc, hws]]
        at hb
      have hrep : ∃ (am : List Authoring) (ns2 : NSMap) (iu : Bool)
          (ex : List Binding),
          (∀ b0 ∈ ex, freshBinding b0) ∧
          (parseBody env st).bindings =
            (if st.importDepth = 0 then
              assignExpressions env.rainlang am ns2 iu
                (processDependencies ex).1
            else (processDependencies ex).1) := by
        refine ⟨_, _, _, _, ?_, rfl⟩
        intro b0 hb0
        rcases bindingsStage_fold_mem st.text _ _ b0 hb0 with h1 | h2
        · simp at h1
        · exact h2
      rcases hrep with ⟨am, ns2, iu, ex, hex, heq⟩
      rw [heq] at hb
      exact final_bindings_inv env.rainlang am ns2 iu st.importDepth ex hex b hb
    · rw [show parseDoc env st = resetDerived st from by simp [parseDoc, hws]]
        at hb
      simp [resetDerived] at hb
  · intro ns key val pos0 pos1 l b hkq hv hlk he
    obtain ⟨H, I, E, bc⟩ := l
    simp only at he
    subst he
    refine ⟨?_, rfl, rfl, rfl⟩
    simp [applyReconfig, hv, hkq, hlk, NSNode.isWord, reboundLeaf,
      reboundBinding]

/-- Witness for `claim_C9_binding_exclusivity` (both parts have
hypotheses): part (i) at the parsed two-binding document and part (ii)
at a concrete rebind. -/
theorem claim_C9_binding_exclusivity_witness :
    (¬((some "e" : Option String).isSome ∧ (none : Option String).isSome)) ∧
    applyReconfig c7bns ("b", (0, 0)) ("42", (2, 3)) =
      (c7bns.set "b" (reboundLeaf
        { Hash := "", ImportIndex := -1, Element := .binding c7bind }
        c7bind "42"), []) := by
  constructor
  · exact (claim_C9_binding_exclusivity.1 emptyEnv { text := "#a ! gone" }
      { name := "a", namePosition := (1, 1), content := "! gone",
        contentPosition := (3, 8), position := (1, 8),
        elided := some "gone" } (by decide)).1
  · exact (claim_C9_binding_exclusivity.2 c7bns "b" "42" (0, 0) (2, 3)
      { Hash := "", ImportIndex := -1, Element := .binding c7bind }
      c7bind (by rfl) (by decide) (by rfl) (by rfl)).1

/-! ### C6 — word-set discovery -/

/-- A subtree without reachable word sets leaves the `_validate` walk
state untouched. -/
theorem vcZero : ∀ (m : NSMap) (c : Nat) (h : String),
    wordsEntriesChildren m = [] → validateChildren m c h = (c, h) := by
  intro m c h
  induction m, c, h using validateChildren.induct with
  | case1 c h => intro _; rfl
  | case2 k rest c h l ih =>
    intro he
    simp only [wordsEntriesChildren, List.nil_append] at he
    simpa [validateChildren] using ih he
  | case3 k rest c h m t c' hbreak ihm =>
    intro he
    simp only [wordsEntriesChildren, List.append_eq_nil] at he
    rcases he with ⟨⟨hw, hm⟩, _⟩
    have hw' : m.lookup "Words" = none := by
      cases hl : m.lookup "Words" with
      | none => rfl
      | some w => rw [hl] at hw; cases hw
    have hm0 : validateChildren m 0 h = (0, h) := ihm 0 h hm
    simp only [validateChildren, wordsStep, hw', hm0]
    revert hbreak
    unfold c' t
    simp only [wordsStep, hw', hm0, Nat.add_zero]
    intro hbreak
    rw [if_pos hbreak]
  | case4 k rest c h m t c' h' hdone ihm ihrest =>
    intro he
    simp only [wordsEntriesChildren, List.append_eq_nil] at he
    rcases he with ⟨⟨hw, hm⟩, hrest⟩
    have hw' : m.lookup "Words" = none := by
      cases hl : m.lookup "Words" with
      | none => rfl
      | some w => rw [hl] at hw; cases hw
    have hm0 : validateChildren m 0 h = (0, h) := ihm 0 h hm
    have hch : validateChildren (NSMap.cons k (NSNode.node m) rest) c h =
        validateChildren rest c h := by
      simp only [validateChildren, wordsStep, hw', hm0]
      simp only [Nat.add_zero]
      rw [if_neg (by omega)]
    rw [hch]
    revert ihrest
    unfold h' c' t
    simp only [wordsStep, hw', hm0, Nat.add_zero]
    intro ihrest
    exact ihrest hrest

/-- The `_validate` count never decreases below its starting value. -/
theorem vcM : ∀ (m : NSMap) (c : Nat) (h : String),
    c ≤ (validateChildren m c h).1 := by
  intro m c h
  induction m, c, h using validateChildren.induct with
  | case1 c h => exact Nat.le_refl c
  | case2 k rest c h l ih => simpa [validateChildren] using ih
  | case3 k rest c h m t c' hbreak ihm =>
    revert hbreak
    unfold c' t
    intro hbreak
    simp only [validateChildren]
    rw [if_pos hbreak]
    exact Nat.le_add_right c _
  | case4 k rest c h m t c' h' hdone ihm ihrest =>
    revert hdone ihrest
    unfold h' c' t
    intro hdone ihrest
    simp only [validateChildren]
    rw [if_neg hdone]
    exact le_trans (Nat.le_add_right c _) ihrest

/-- The step through one interior child keeps a nonempty first-found
hash (given the inner walk does). -/
theorem vcT2 (m : NSMap) (h : String) (hne : h ≠ "")
    (ih : (validateChildren m 0 h).2 = h) :
    (match wordsStep m h with
     | .earlyRet r => r
     | .cont c0 h0 => validateChildren m c0 h0).2 = h := by
  cases hl : m.lookup "Words" with
  | none => simp only [wordsStep, hl]; exact ih
  | some w =>
    simp only [wordsStep, hl, if_neg hne]
    by_cases hlw : jsToLower w.hashStr ≠ jsToLower h
    · rw [if_pos hlw]
    · rw [if_neg hlw]; exact ih

/-- Once a first-found hash is set it never changes. -/
theorem vcH : ∀ (m : NSMap) (c : Nat) (h : String), h ≠ "" →
    (validateChildren m c h).2 = h := by
  intro m c h
  induction m, c, h using validateChildren.induct with
  | case1 c h => intro _; rfl
  | case2 k rest c h l ih =>
    intro hne
    simpa [validateChildren] using ih hne
  | case3 k rest c h m t c' hbreak ihm =>
    intro hne
    have ht2 := vcT2 m h hne (ihm 0 h hne)
    revert hbreak
    unfold c' t
    intro hbreak
    simp only [validateChildren]
    rw [if_pos hbreak]
    exact ht2
  | case4 k rest c h m t c' h' hdone ihm ihrest =>
    intro hne
    have ht2 := vcT2 m h hne (ihm 0 h hne)
    revert hdone ihrest
    unfold h' c' t
    intro hdone ihrest
    rw [ht2] at ihrest
    simp only [validateChildren]
    rw [if_neg hdone, ht2]
    exact ihrest hne

/-- Starting from an empty first-found hash, a walk that ends with a
hash set has counted at least one word set. -/
theorem vcNEWH : ∀ (m : NSMap) (c : Nat) (h : String), h = "" →
    (validateChildren m c h).2 ≠ "" → c + 1 ≤ (validateChildren m c h).1 := by
  intro m c h
  induction m, c, h using validateChildren.induct with
  | case1 c h =>
    intro he hne
    exact absurd he (by simpa [validateChildren] using hne)
  | case2 k rest c h l ih =>
    intro he hne
    simp only [validateChildren] at hne ⊢
    exact ih he hne
  | case3 k rest c h m t c' hbreak ihm =>
    intro he hne
    subst he
    revert hbreak
    unfold c' t
    intro hbreak
    simp only [validateChildren] at hne ⊢
    rw [if_pos hbreak] at hne ⊢
    cases hl : m.lookup "Words" with
    | some w =>
      simp only [wordsStep, hl, reduceIte]
      exact Nat.add_le_add_left (vcM m 1 w.hashStr) c
    | none =>
      simp only [wordsStep, hl] at hne ⊢
      have h1 := ihm 0 "" rfl hne
      exact Nat.add_le_add_left (by omega : 1 ≤ (validateChildren m 0 "").1) c
  | case4 k rest c h m t c' h' hdone ihm ihrest =>
    intro he hne
    subst he
    revert hdone ihrest
    unfold h' c' t
    intro hdone ihrest
    simp only [validateChildren] at hne ⊢
    rw [if_neg hdone] at hne ⊢
    cases hl : m.lookup "Words" with
    | some w =>
      simp only [wordsStep, hl, reduceIte]
      exact le_trans (Nat.add_le_add_left (vcM m 1 w.hashStr) c) (vcM rest _ _)
    | none =>
      simp only [wordsStep, hl] at hne ihrest ⊢
      by_cases hY : (validateChildren m 0 "").2 = ""
      · rw [hY] at ihrest hne ⊢
        exact le_trans (by omega) (ihrest rfl hne)
      · have h1 := ihm 0 "" rfl hY
        exact le_trans
          (Nat.add_le_add_left (by omega : 1 ≤ (validateChildren m 0 "").1) c)
          (vcM rest _ _)

/-- The hash carried out of one interior child is the incoming hash or
the hash of a word set reachable in that child. -/
theorem vcTX (m : NSMap) (h : String)
    (ih : ∀ (c0 : Nat) (h0 : String), (validateChildren m c0 h0).2 = h0 ∨
        ∃ w ∈ wordsEntriesChildren m,
          (validateChildren m c0 h0).2 = w.hashStr) :
    (match wordsStep m h with
     | .earlyRet r => r
     | .cont c0 h0 => validateChildren m c0 h0).2 = h ∨
    ∃ w, (m.lookup "Words" = some w ∨ w ∈ wordsEntriesChildren m) ∧
      (match wordsStep m h with
       | .earlyRet r => r
       | .cont c0 h0 => validateChildren m c0 h0).2 = w.hashStr := by
  cases hl : m.lookup "Words" with
  | none =>
    simp only [wordsStep, hl]
    rcases ih 0 h with hcase | ⟨w, hw, hcase⟩
    · exact Or.inl hcase
    · exact Or.inr ⟨w, Or.inr hw, hcase⟩
  | some w0 =>
    by_cases hh : h = ""
    · subst hh
      simp only [wordsStep, hl, reduceIte]
      rcases ih 1 w0.hashStr with hcase | ⟨w, hw, hcase⟩
      · exact Or.inr ⟨w0, Or.inl rfl, hcase⟩
      · exact Or.inr ⟨w, Or.inr hw, hcase⟩
    · simp only [wordsStep, hl, if_neg hh]
      by_cases hlw : jsToLower w0.hashStr ≠ jsToLower h
      · rw [if_pos hlw]
        exact Or.inl rfl
      · rw [if_neg hlw]
        rcases ih 0 h with hcase | ⟨w, hw, hcase⟩
        · exact Or.inl hcase
        · exact Or.inr ⟨w, Or.inr hw, hcase⟩

/-- The final first-found hash is the starting hash or the hash of some
reachable word set. -/
theorem vcFSTX : ∀ (m : NSMap) (c : Nat) (h : String),
    (validateChildren m c h).2 = h ∨
    ∃ w ∈ wordsEntriesChildren m,
      (validateChildren m c h).2 = w.hashStr := by
  intro m c h
  induction m, c, h using validateChildren.induct with
  | case1 c h => exact Or.inl rfl
  | case2 k rest c h l ih =>
    simp only [validateChildren, wordsEntriesChildren, List.nil_append]
    exact ih
  | case3 k rest c h m t c' hbreak ihm =>
    revert hbreak
    unfold c' t
    intro hbreak
    simp only [validateChildren]
    rw [if_pos hbreak]
    rcases vcTX m h (fun c0 h0 => ihm c0 h0) with hcase | ⟨w, hA | hB, hcase⟩
    · exact Or.inl hcase
    · exact Or.inr ⟨w, by simp [wordsEntriesChildren, hA], hcase⟩
    · exact Or.inr ⟨w, by simp [wordsEntriesChildren, hB], hcase⟩
  | case4 k rest c h m t c' h' hdone ihm ihrest =>
    revert hdone ihrest
    unfold h' c' t
    intro hdone ihrest
    simp only [validateChildren]
    rw [if_neg hdone]
    rcases ihrest with hr | ⟨w, hw, hr⟩
    · rw [hr]
      rcases vcTX m h (fun c0 h0 => ihm c0 h0) with hcase | ⟨w, hA | hB, hcase⟩
      · exact Or.inl hcase
      · exact Or.inr ⟨w, by simp [wordsEntriesChildren, hA], hcase⟩
      · exact Or.inr ⟨w, by simp [wordsEntriesChildren, hB], hcase⟩
    · exact Or.inr ⟨w, by simp [wordsEntriesChildren, hw], hr⟩

/-- A reachable word set that will count against the incoming hash
(any set when the hash is still empty, a differing-hash set otherwise)
pushes the count past the starting value, up to the cutoff at two. -/
theorem vcLB2 : ∀ (m : NSMap) (c : Nat) (h : String),
    (∃ w ∈ wordsEntriesChildren m,
      h = "" ∨ jsToLower w.hashStr ≠ jsToLower h) →
    min 2 (c + 1) ≤ (validateChildren m c h).1 := by
  intro m c h
  induction m, c, h using validateChildren.induct with
  | case1 c h =>
    rintro ⟨w, hw, _⟩
    simp [wordsEntriesChildren] at hw
  | case2 k rest c h l ih =>
    intro hyp
    simp only [wordsEntriesChildren, List.nil_append] at hyp
    simp only [validateChildren]
    exact ih hyp
  | case3 k rest c h m t c' hbreak ihm =>
    intro _
    revert hbreak
    unfold c' t
    intro hbreak
    simp only [validateChildren]
    rw [if_pos hbreak]
    exact le_trans (min_le_left _ _) hbreak
  | case4 k rest c h m t c' h' hdone ihm ihrest =>
    rintro ⟨w, hw, hcond⟩
    revert hdone ihrest
    unfold h' c' t
    intro hdone ihrest
    simp only [validateChildren]
    rw [if_neg hdone]
    cases hl : m.lookup "Words" with
    | some w0 =>
      by_cases hh : h = ""
      · subst hh
        simp only [wordsStep, hl, reduceIte] at ihrest ⊢
        have h1 : 1 ≤ (validateChildren m 1 w0.hashStr).1 := vcM m 1 _
        exact le_trans (min_le_right _ _)
          (le_trans (Nat.add_le_add_left h1 c) (vcM rest _ _))
      · by_cases hlw : jsToLower w0.hashStr ≠ jsToLower h
        · simp only [wordsStep, hl, if_neg hh, if_pos hlw] at ihrest ⊢
          exact le_trans (min_le_right _ _) (vcM rest (c + 1) h)
        · simp only [wordsStep, hl, if_neg hh, if_neg hlw] at ihrest ⊢
          have hH : (validateChildren m 0 h).2 = h := vcH m 0 h hh
          simp only [wordsEntriesChildren, hl, List.mem_append,
            List.mem_singleton] at hw
          rcases hw with (hww | hwB) | hwC
          · subst hww
            rcases hcond with he | hne2
            · exact absurd he hh
            · exact absurd (not_not.mp hlw) hne2
          · have h1 := ihm 0 h ⟨w, hwB, hcond⟩
            have h1a : 1 ≤ (validateChildren m 0 h).1 :=
              le_trans (by decide) h1
            exact le_trans (min_le_right _ _)
              (le_trans (Nat.add_le_add_left h1a c) (vcM rest _ _))
          · rw [hH] at ihrest ⊢
            have h3 := ihrest ⟨w, hwC, hcond⟩
            exact le_trans (by omega) h3
    | none =>
      simp only [wordsStep, hl] at ihrest ⊢
      simp only [wordsEntriesChildren, hl, List.nil_append, List.mem_append]
        at hw
      rcases hw with hwB | hwC
      · have h1 := ihm 0 h ⟨w, hwB, hcond⟩
        have h1a : 1 ≤ (validateChildren m 0 h).1 := le_trans (by decide) h1
        exact le_trans (min_le_right _ _)
          (le_trans (Nat.add_le_add_left h1a c) (vcM rest _ _))
      · by_cases hh : h = ""
        · subst hh
          by_cases hY : (validateChildren m 0 "").2 = ""
          · rw [hY] at ihrest ⊢
            have h3 := ihrest ⟨w, hwC, Or.inl rfl⟩
            exact le_trans (by omega) h3
          · have h1 := vcNEWH m 0 "" rfl hY
            exact le_trans (min_le_right _ _)
              (le_trans
                (Nat.add_le_add_left
                  (by omega : 1 ≤ (validateChildren m 0 "").1) c)
                (vcM rest _ _))
        · have hH : (validateChildren m 0 h).2 = h := vcH m 0 h hh
          rw [hH] at ihrest ⊢
          have h3 := ihrest ⟨w, hwC, hcond⟩
          exact le_trans (by omega) h3

/-- Two reachable word sets with case-insensitively differing hashes
drive the count to the cutoff when the walk starts with no hash
found. -/
theorem vcPairCh : ∀ (m : NSMap) (c : Nat) (h : String), h = "" →
    (∃ w1 ∈ wordsEntriesChildren m, ∃ w2 ∈ wordsEntriesChildren m,
      jsToLower w1.hashStr ≠ jsToLower w2.hashStr) →
    2 ≤ (validateChildren m c h).1 := by
  intro m c h
  induction m, c, h using validateChildren.induct with
  | case1 c h =>
    rintro _ ⟨w1, hw1, _⟩
    simp [wordsEntriesChildren] at hw1
  | case2 k rest c h l ih =>
    intro he hyp
    simp only [wordsEntriesChildren, List.nil_append] at hyp
    simp only [validateChildren]
    exact ih he hyp
  | case3 k rest c h m t c' hbreak ihm =>
    intro _ _
    revert hbreak
    unfold c' t
    intro hbreak
    simp only [validateChildren]
    rw [if_pos hbreak]
    exact hbreak
  | case4 k rest c h m t c' h' hdone ihm ihrest =>
    rintro he ⟨w1, hw1, w2, hw2, hne12⟩
    subst he
    revert hdone ihrest
    unfold h' c' t
    intro hdone ihrest
    simp only [validateChildren]
    rw [if_neg hdone]
    cases hl : m.lookup "Words" with
    | some w0 =>
      simp only [wordsStep, hl, reduceIte] at hdone ihrest ⊢
      have hX1 : 1 ≤ (validateChildren m 1 w0.hashStr).1 := vcM m 1 _
      have hcontra : ∀ wB ∈ wordsEntriesChildren m,
          jsToLower wB.hashStr ≠ jsToLower w0.hashStr → False := by
        intro wB hB hneB
        have := vcLB2 m 1 w0.hashStr ⟨wB, hB, Or.inr hneB⟩
        omega
      have hcontra0 : w0.hashStr = "" →
          ∀ wB ∈ wordsEntriesChildren m, False := by
        intro h0 wB hB
        have := vcLB2 m 1 w0.hashStr ⟨wB, hB, Or.inl h0⟩
        omega
      have hCcount : ∀ wC ∈ wordsEntriesChildren rest,
          ((validateChildren m 1 w0.hashStr).2 = "" ∨
            jsToLower wC.hashStr ≠
              jsToLower (validateChildren m 1 w0.hashStr).2) →
          2 ≤ (validateChildren rest
            (c + (validateChildren m 1 w0.hashStr).1)
            (validateChildren m 1 w0.hashStr).2).1 := by
        intro wC hC hcnd
        have := vcLB2 rest (c + (validateChildren m 1 w0.hashStr).1)
          (validateChildren m 1 w0.hashStr).2 ⟨wC, hC, hcnd⟩
        omega
      simp only [wordsEntriesChildren, hl, List.cons_append,
        List.nil_append, List.mem_append, List.mem_cons,
        List.not_mem_nil, or_false] at hw1 hw2
      rcases hw1 with hw1A | hw1B | hw1C
      · rw [hw1A] at hne12
        rcases hw2 with hw2A | hw2B | hw2C
        · rw [hw2A] at hne12
          exact absurd rfl hne12
        · exact (hcontra w2 hw2B (Ne.symm hne12)).elim
        · by_cases h0 : w0.hashStr = ""
          · by_cases hY : (validateChildren m 1 w0.hashStr).2 = ""
            · exact hCcount w2 hw2C (Or.inl hY)
            · exfalso
              rw [h0] at hdone hY
              have h2 := vcNEWH m 1 "" rfl hY
              exact hdone (by omega)
          · have hH := vcH m 1 w0.hashStr h0
            exact hCcount w2 hw2C (Or.inr (by rw [hH]; exact Ne.symm hne12))
      · rcases hw2 with hw2A | hw2B | hw2C
        · rw [hw2A] at hne12
          exact (hcontra w1 hw1B hne12).elim
        · by_cases hq : jsToLower w1.hashStr = jsToLower w0.hashStr
          · exact (hcontra w2 hw2B
              (fun hEq => hne12 (hq.trans hEq.symm))).elim
          · exact (hcontra w1 hw1B hq).elim
        · by_cases h0 : w0.hashStr = ""
          · exact (hcontra0 h0 w1 hw1B).elim
          · have hH := vcH m 1 w0.hashStr h0
            by_cases hq2 : jsToLower w2.hashStr = jsToLower w0.hashStr
            · exact (hcontra w1 hw1B
                (fun hEq => hne12 (hEq.trans hq2.symm))).elim
            · exact hCcount w2 hw2C (Or.inr (by rw [hH]; exact hq2))
      · rcases hw2 with hw2A | hw2B | hw2C
        · rw [hw2A] at hne12
          by_cases h0 : w0.hashStr = ""
          · by_cases hY : (validateChildren m 1 w0.hashStr).2 = ""
            · exact hCcount w1 hw1C (Or.inl hY)
            · exfalso
              rw [h0] at hdone hY
              have h2 := vcNEWH m 1 "" rfl hY
              exact hdone (by omega)
          · have hH := vcH m 1 w0.hashStr h0
            exact hCcount w1 hw1C (Or.inr (by rw [hH]; exact hne12))
        · by_cases h0 : w0.hashStr = ""
          · exact (hcontra0 h0 w2 hw2B).elim
          · have hH := vcH m 1 w0.hashStr h0
            by_cases hq1 : jsToLower w1.hashStr = jsToLower w0.hashStr
            · exact (hcontra w2 hw2B
                (fun hEq => hne12 (hq1.trans hEq.symm))).elim
            · exact hCcount w1 hw1C (Or.inr (by rw [hH]; exact hq1))
        · by_cases hY : (validateChildren m 1 w0.hashStr).2 = ""
          · exact ihrest hY ⟨w1, hw1C, w2, hw2C, hne12⟩
          · by_cases hq1 : jsToLower w1.hashStr =
                jsToLower (validateChildren m 1 w0.hashStr).2
            · exact hCcount w2 hw2C
                (Or.inr (fun hEq => hne12 (hq1.trans hEq.symm)))
            · exact hCcount w1 hw1C (Or.inr hq1)
    | none =>
      simp only [wordsStep, hl] at hdone ihrest ⊢
      simp only [wordsEntriesChildren, hl, List.nil_append, List.mem_append]
        at hw1 hw2
      have hCcount : ∀ wC ∈ wordsEntriesChildren rest,
          ((validateChildren m 0 "").2 = "" ∨
            jsToLower wC.hashStr ≠ jsToLower (validateChildren m 0 "").2) →
          1 ≤ c + (validateChildren m 0 "").1 →
          2 ≤ (validateChildren rest (c + (validateChildren m 0 "").1)
            (validateChildren m 0 "").2).1 := by
        intro wC hC hcnd hge
        have := vcLB2 rest (c + (validateChildren m 0 "").1)
          (validateChildren m 0 "").2 ⟨wC, hC, hcnd⟩
        omega
      rcases hw1 with hw1B | hw1C
      · rcases hw2 with hw2B | hw2C
        · exfalso
          have h2 := ihm 0 "" rfl ⟨w1, hw1B, w2, hw2B, hne12⟩
          exact hdone (by omega)
        · have hXge : 1 ≤ (validateChildren m 0 "").1 := by
            have := vcLB2 m 0 "" ⟨w1, hw1B, Or.inl rfl⟩
            omega
          by_cases hY : (validateChildren m 0 "").2 = ""
          · exact hCcount w2 hw2C (Or.inl hY) (by omega)
          · by_cases hq2 : jsToLower w2.hashStr =
                jsToLower (validateChildren m 0 "").2
            · rcases vcFSTX m 0 "" with hEq | ⟨w3, hw3, hEq⟩
              · exact absurd hEq hY
              · have hq2a : jsToLower w2.hashStr = jsToLower w3.hashStr := by
                  rw [hq2, hEq]
                have hp : jsToLower w1.hashStr ≠ jsToLower w3.hashStr :=
                  fun hEq13 => hne12 (hEq13.trans hq2a.symm)
                have h2 := ihm 0 "" rfl ⟨w1, hw1B, w3, hw3, hp⟩
                exact absurd (by omega : 1 < c + (validateChildren m 0 "").1)
                  hdone
            · exact hCcount w2 hw2C (Or.inr hq2) (by omega)
      · rcases hw2 with hw2B | hw2C
        · have hXge : 1 ≤ (validateChildren m 0 "").1 := by
            have := vcLB2 m 0 "" ⟨w2, hw2B, Or.inl rfl⟩
            omega
          by_cases hY : (validateChildren m 0 "").2 = ""
          · exact hCcount w1 hw1C (Or.inl hY) (by omega)
          · by_cases hq1 : jsToLower w1.hashStr =
                jsToLower (validateChildren m 0 "").2
            · rcases vcFSTX m 0 "" with hEq | ⟨w3, hw3, hEq⟩
              · exact absurd hEq hY
              · have hq1a : jsToLower w1.hashStr = jsToLower w3.hashStr := by
                  rw [hq1, hEq]
                have hp : jsToLower w2.hashStr ≠ jsToLower w3.hashStr :=
                  fun hEq23 => hne12 (hq1a.trans hEq23.symm)
                have h2 := ihm 0 "" rfl ⟨w2, hw2B, w3, hw3, hp⟩
                exact absurd (by omega : 1 < c + (validateChildren m 0 "").1)
                  hdone
            · exact hCcount w1 hw1C (Or.inr hq1) (by omega)
        · by_cases hY : (validateChildren m 0 "").2 = ""
          · exact ihrest hY ⟨w1, hw1C, w2, hw2C, hne12⟩
          · have hXge : 1 ≤ (validateChildren m 0 "").1 := by
              have := vcNEWH m 0 "" rfl hY
              omega
            by_cases hq1 : jsToLower w1.hashStr =
                jsToLower (validateChildren m 0 "").2
            · exact hCcount w2 hw2C
                (Or.inr (fun hEq => hne12 (hq1.trans hEq.symm))) (by omega)
            · exact hCcount w1 hw1C (Or.inr hq1) (by omega)

/-- With exactly one reachable word set, the walk from an empty state
counts exactly one and carries out that set's hash. -/
theorem vcSingle (w : NSNode) : ∀ (m : NSMap) (c : Nat) (h : String),
    wordsEntriesChildren m = [w] → c = 0 → h = "" →
    validateChildren m c h = (1, w.hashStr) := by
  intro m c h
  induction m, c, h using validateChildren.induct with
  | case1 c h =>
    intro he _ _
    simp [wordsEntriesChildren] at he
  | case2 k rest c h l ih =>
    intro he hc hh
    simp only [wordsEntriesChildren, List.nil_append] at he
    simp only [validateChildren]
    exact ih he hc hh
  | case3 k rest c h m t c' hbreak ihm =>
    intro he hc hh
    subst hc
    subst hh
    exfalso
    revert hbreak
    unfold c' t
    intro hbreak
    cases hl : m.lookup "Words" with
    | some w0 =>
      simp only [wordsEntriesChildren, hl] at he
      have he2 : w0 = w ∧ wordsEntriesChildren m = [] ∧
          wordsEntriesChildren rest = [] := by simpa using he
      rcases he2 with ⟨hww, hB, hC⟩
      simp only [wordsStep, hl, reduceIte, vcZero m 1 w0.hashStr hB]
        at hbreak
      omega
    | none =>
      simp only [wordsEntriesChildren, hl, List.nil_append] at he
      cases hB : wordsEntriesChildren m with
      | nil =>
        simp only [wordsStep, hl, vcZero m 0 "" hB] at hbreak
        omega
      | cons b btl =>
        rw [hB] at he
        have he2 : b = w ∧ btl = [] ∧ wordsEntriesChildren rest = [] := by
          simpa using he
        rcases he2 with ⟨hbw, hbtl, hC⟩
        have hBw : wordsEntriesChildren m = [w] := by rw [hB, hbw, hbtl]
        simp only [wordsStep, hl, ihm 0 "" hBw rfl rfl] at hbreak
        omega
  | case4 k rest c h m t c' h' hdone ihm ihrest =>
    intro he hc hh
    subst hc
    subst hh
    revert hdone ihrest
    unfold h' c' t
    intro hdone ihrest
    simp only [validateChildren]
    rw [if_neg hdone]
    cases hl : m.lookup "Words" with
    | some w0 =>
      simp only [wordsEntriesChildren, hl] at he
      have he2 : w0 = w ∧ wordsEntriesChildren m = [] ∧
          wordsEntriesChildren rest = [] := by simpa using he
      rcases he2 with ⟨hww, hB, hC⟩
      simp only [wordsStep, hl, reduceIte, vcZero m 1 w0.hashStr hB,
        Nat.zero_add]
      rw [hww]
      exact vcZero rest 1 w.hashStr hC
    | none =>
      simp only [wordsEntriesChildren, hl, List.nil_append] at he
      cases hB : wordsEntriesChildren m with
      | nil =>
        rw [hB, List.nil_append] at he
        simp only [wordsStep, hl, vcZero m 0 "" hB, Nat.add_zero]
          at ihrest ⊢
        exact ihrest he trivial trivial
      | cons b btl =>
        rw [hB] at he
        have he2 : b = w ∧ btl = [] ∧ wordsEntriesChildren rest = [] := by
          simpa using he
        rcases he2 with ⟨hbw, hbtl, hC⟩
        have hBw : wordsEntriesChildren m = [w] := by rw [hB, hbw, hbtl]
        simp only [wordsStep, hl, ihm 0 "" hBw rfl rfl, Nat.zero_add]
        exact vcZero rest 1 w.hashStr hC

/-- Two case-insensitively differing reachable word sets force the
full validation count to at least two. -/
theorem vwPair (ns : NSMap)
    (hp : ∃ w1 ∈ wordsEntries ns, ∃ w2 ∈ wordsEntries ns,
      jsToLower w1.hashStr ≠ jsToLower w2.hashStr) :
    2 ≤ (validateWords ns "").1 := by
  rcases hp with ⟨w1, hw1, w2, hw2, hne⟩
  cases hl : ns.lookup "Words" with
  | none =>
    simp only [wordsEntries, hl, List.nil_append] at hw1 hw2
    simp only [validateWords, wordsStep, hl]
    exact vcPairCh ns 0 "" rfl ⟨w1, hw1, w2, hw2, hne⟩
  | some w0 =>
    simp only [wordsEntries, hl, List.cons_append, List.nil_append,
      List.mem_cons] at hw1 hw2
    simp only [validateWords, wordsStep, hl, reduceIte]
    rcases hw1 with hw1A | hw1B
    · rw [hw1A] at hne
      rcases hw2 with hw2A | hw2B
      · rw [hw2A] at hne
        exact absurd rfl hne
      · have := vcLB2 ns 1 w0.hashStr ⟨w2, hw2B, Or.inr (Ne.symm hne)⟩
        omega
    · rcases hw2 with hw2A | hw2B
      · rw [hw2A] at hne
        have := vcLB2 ns 1 w0.hashStr ⟨w1, hw1B, Or.inr hne⟩
        omega
      · by_cases hq : jsToLower w1.hashStr = jsToLower w0.hashStr
        · have := vcLB2 ns 1 w0.hashStr
            ⟨w2, hw2B, Or.inr (fun hEq => hne (hq.trans hEq.symm))⟩
          omega
        · have := vcLB2 ns 1 w0.hashStr ⟨w1, hw1B, Or.inr hq⟩
          omega

/-- Structural induction over a namespace map with an induction
hypothesis for both an interior value's children and the remaining
entries. -/
theorem nsmapIndStrong {motive : NSMap → Prop}
    (hnil : motive .nil)
    (hleaf : ∀ k l rest, motive rest → motive (.cons k (.leaf l) rest))
    (hnode : ∀ k m rest, motive m → motive rest →
      motive (.cons k (.node m) rest)) :
    ∀ m, motive m :=
  fun m =>
    @NSMap.rec (fun v => ∀ m2, v = NSNode.node m2 → motive m2) motive
      (fun l m2 h => NSNode.noConfusion h)
      (fun m0 ih m2 h => by injection h with h2; exact h2 ▸ ih)
      hnil
      (fun k v rest ihv ihrest => by
        cases v with
        | leaf l => exact hleaf k l rest ihrest
        | node m0 => exact hnode k m0 rest (ihv m0 rfl) ihrest)
      m

/-- The path-carrying reachability list projects to the plain word-set
entry list. -/
theorem wfcSnd : ∀ m : NSMap,
    wordsEntriesChildren m = (wordsFoundChildren m).map Prod.snd := by
  intro m
  induction m using nsmapIndStrong with
  | hnil => rfl
  | hleaf k l rest ihrest =>
    simp only [wordsEntriesChildren, wordsFoundChildren, List.nil_append,
      List.map_append, ihrest]
  | hnode k m rest ihm ihrest =>
    cases hl : m.lookup "Words" with
    | none =>
      simp only [wordsEntriesChildren, wordsFoundChildren, hl,
        List.nil_append, List.map_append, List.map_map, ihm, ihrest]
      rfl
    | some w =>
      simp only [wordsEntriesChildren, wordsFoundChildren, hl,
        List.cons_append, List.nil_append, List.map_append, List.map_map,
        List.map_cons, ihm, ihrest]
      rfl

/-- `_get`'s child search returns exactly the head of the reachability
list. -/
theorem searchHead : ∀ m : NSMap,
    searchWordsChildren m = (wordsFoundChildren m).head? := by
  intro m
  induction m using nsmapIndStrong with
  | hnil => rfl
  | hleaf k l rest ihrest =>
    simp only [searchWordsChildren, wordsFoundChildren, List.nil_append]
    exact ihrest
  | hnode k m rest ihm ihrest =>
    cases hl : m.lookup "Words" with
    | some w =>
      simp only [searchWordsChildren, wordsFoundChildren, hl,
        List.cons_append, List.map_cons, List.head?_cons]
    | none =>
      simp only [searchWordsChildren, wordsFoundChildren, hl,
        List.nil_append, ihm]
      cases hfm : wordsFoundChildren m with
      | nil =>
        simp only [List.head?_nil, List.map_nil, List.nil_append]
        exact ihrest
      | cons pr tl =>
        simp only [List.head?_cons, List.map_cons, List.cons_append]

/-- `getWords` with no reachable word set reports "cannot find any set
of words". -/
theorem getWordsEmptyCase (ns : NSMap) (he : wordsEntries ns = []) :
    getWords ns = { problems := [cannotFindWordsProblem] } := by
  have hl : ns.lookup "Words" = none := by
    cases hl : ns.lookup "Words" with
    | none => rfl
    | some w => rw [wordsEntries, hl] at he; simp at he
  have hch : wordsEntriesChildren ns = [] := by
    simpa [wordsEntries, hl] using he
  have hv : validateWords ns "" = (0, "") := by
    simp only [validateWords, wordsStep, hl]
    exact vcZero ns 0 "" hch
  simp only [getWords, hv]
  rfl

/-- `getWords` with exactly one reachable word set exposes that set's
authoring metadata and bytecode along with its dotted path. -/
theorem getWordsSingleCase (ns : NSMap) (p : List String) (l : NSLeaf)
    (ams : List Authoring)
    (hf : wordsFound ns = [(p, NSNode.leaf l)])
    (hel : l.Element = .words ams) :
    getWords ns = {
      problems := [], authoringMeta := ams, bytecode := l.bytecode,
      authoringMetaPath := "." ++ String.intercalate "." p } := by
  cases hl : ns.lookup "Words" with
  | some w0 =>
    rw [wordsFound, hl] at hf
    have hf2 : (p = [] ∧ w0 = NSNode.leaf l) ∧
        wordsFoundChildren ns = [] := by simpa using hf
    rcases hf2 with ⟨⟨hp, hw0⟩, hfc⟩
    have hch : wordsEntriesChildren ns = [] := by
      rw [wfcSnd ns, hfc]; rfl
    have hv : validateWords ns "" = (1, w0.hashStr) := by
      simp only [validateWords, wordsStep, hl, reduceIte]
      exact vcZero ns 1 _ hch
    rw [hp]
    simp only [getWords, hv, getWordsNode, hl, getWordsPathString, hw0]
    rw [hel]
    rfl
  | none =>
    rw [wordsFound, hl, List.nil_append] at hf
    have hch : wordsEntriesChildren ns = [NSNode.leaf l] := by
      rw [wfcSnd ns, hf]; rfl
    have hv : validateWords ns "" = (1, (NSNode.leaf l).hashStr) := by
      simp only [validateWords, wordsStep, hl]
      exact vcSingle (NSNode.leaf l) ns 0 "" hch rfl rfl
    have hsearch : searchWordsChildren ns = some (p, NSNode.leaf l) := by
      rw [searchHead ns, hf]; rfl
    have hgn : getWordsNode ns = some (NSNode.leaf l) := by
      simp [getWordsNode, hl, hsearch]
    simp only [getWords, hv, hgn, getWordsPathString, hl, hsearch]
    rw [hel]
    rfl

/-- `getWords` with two differently-hashed reachable word sets reports
"words must be singleton" with the computed count. -/
theorem getWordsMultiCase (ns : NSMap)
    (hp : ∃ w1 ∈ wordsEntries ns, ∃ w2 ∈ wordsEntries ns,
      jsToLower w1.hashStr ≠ jsToLower w2.hashStr) :
    2 ≤ (validateWords ns "").1 ∧
    getWords ns = { problems := [singletonProblem (validateWords ns "").1] }
    := by
  have h2 := vwPair ns hp
  refine ⟨h2, ?_⟩
  simp only [getWords]
  rw [if_pos (by omega : (validateWords ns "").1 > 1)]

/-- At import depth above zero, `_parse` skips word-set selection: the
working word-set fields keep their reset defaults. -/
theorem parseNoWordsAtDepth (env : ParseEnv) (st : DocState)
    (hd : st.importDepth ≠ 0) :
    (parseBodyCore env st).authoringMeta = [] ∧
    (parseBodyCore env st).authoringMetaPath = "" ∧
    (parseBodyCore env st).bytecode = some "" := by
  simp only [parseBodyCore]
  rw [show (resetDerived st).importDepth = st.importDepth from rfl]
  rw [if_neg hd]
  exact ⟨rfl, rfl, rfl⟩

/-- C6 (amended): word-set discovery over the merged root namespace is
driven by the count `_validate` computes, which counts reachable
word-set leaves only while their hashes differ case-insensitively from
the first-found hash: (a) with no reachable word-set leaf it records
"cannot find any set of words"; (b) with exactly one reachable
word-set leaf it exposes that leaf's authoring metadata and bytecode as
the working word set together with its dotted namespace path; (c) with
two reachable word-set leaves whose hashes differ case-insensitively
it records "words must be singleton" reporting the computed count (at
least two); and (d) for a document at import depth greater than zero
the selection is never performed — the working word-set fields keep
their reset defaults. (The original claim counted raw leaves: several
leaves sharing one hash still count as a singleton, see the
counterexample.) -/
theorem claim_C6_word_set_discovery :
    (∀ ns : NSMap, wordsEntries ns = [] →
      getWords ns = { problems := [cannotFindWordsProblem] }) ∧
    (∀ (ns : NSMap) (p : List String) (l : NSLeaf) (ams : List Authoring),
      wordsFound ns = [(p, NSNode.leaf l)] → l.Element = .words ams →
      getWords ns = {
        problems := [], authoringMeta := ams, bytecode := l.bytecode,
        authoringMetaPath := "." ++ String.intercalate "." p }) ∧
    (∀ ns : NSMap,
      (∃ w1 ∈ wordsEntries ns, ∃ w2 ∈ wordsEntries ns,
        jsToLower w1.hashStr ≠ jsToLower w2.hashStr) →
      2 ≤ (validateWords ns "").1 ∧
      getWords ns = {
        problems := [singletonProblem (validateWords ns "").1] }) ∧
    (∀ (env : ParseEnv) (st : DocState), st.importDepth ≠ 0 →
      (parseBodyCore env st).authoringMeta = [] ∧
      (parseBodyCore env st).authoringMetaPath = "" ∧
      (parseBodyCore env st).bytecode = some "") :=
  ⟨getWordsEmptyCase, getWordsSingleCase, getWordsMultiCase,
   parseNoWordsAtDepth⟩

/-- C6 witness: the amended theorem applied to a wordless namespace, a
single-set namespace, a two-hash namespace and a depth-one parse. -/
theorem claim_C6_word_set_discovery_witness :
    getWords .nil = { problems := [cannotFindWordsProblem] } ∧
    getWords c6single = {
      problems := [], authoringMeta := [{ word := "add" }],
      bytecode := some "0xb",
      authoringMetaPath := "." ++ String.intercalate "." ["x"] } ∧
    (2 ≤ (validateWords c6pair "").1 ∧
      getWords c6pair = {
        problems := [singletonProblem (validateWords c6pair "").1] }) ∧
    ((parseBodyCore emptyEnv c6deepState).authoringMeta = [] ∧
      (parseBodyCore emptyEnv c6deepState).authoringMetaPath = "" ∧
      (parseBodyCore emptyEnv c6deepState).bytecode = some "") :=
  ⟨claim_C6_word_set_discovery.1 .nil rfl,
   claim_C6_word_set_discovery.2.1 c6single ["x"] c6w [{ word := "add" }]
     rfl rfl,
   claim_C6_word_set_discovery.2.2.1 c6pair
     ⟨NSNode.leaf (wordsLeaf "0x01" 0),
      by rw [show wordsEntries c6pair =
            [NSNode.leaf (wordsLeaf "0x01" 0),
             NSNode.leaf (wordsLeaf "0x02" 1)] from rfl]
         exact List.mem_cons_self _ _,
      NSNode.leaf (wordsLeaf "0x02" 1),
      by rw [show wordsEntries c6pair =
            [NSNode.leaf (wordsLeaf "0x01" 0),
             NSNode.leaf (wordsLeaf "0x02" 1)] from rfl]
         exact List.mem_cons_of_mem _ (List.mem_cons_self _ _),
      by decide⟩,
   claim_C6_word_set_discovery.2.2.2 emptyEnv c6deepState (by decide)⟩

/-- C6 counterexample to the original claim: `c6ns` holds two
reachable word-set leaves (so "more than one" should report "words
must be singleton"), yet both carry hash `0xaa`, the computed count is
one, and `getWords` exposes the first set as the working singleton
with no problem. -/
theorem claim_C6_counterexample :
    (wordsEntries c6ns).length = 2 ∧
    getWords c6ns = {
      problems := [], authoringMeta := [{ word := "add" }],
      bytecode := some "0xb", authoringMetaPath := ".x" } :=
  ⟨rfl, rfl⟩

end Rainlang
